import Mathlib

/-!
Verification of the cache simulator in `src/cache.py` (class `CacheSimulator`).

The Python program is embedded shallowly:

* a Python `dict[int, int]` becomes an insertion-ordered association list
  (`PyDict`); `d[k] = v` keeps the position of an existing key and appends a
  fresh key at the end, `del d[k]` raises `KeyError` when the key is absent
  (modelled with `Option`), and `min(d, key=d.get)` / `max(d, key=d.get)`
  return the first key attaining the extremal value in iteration order;
* Python list indexing `xs[i]` accepts negative indices (they wrap around)
  and raises `IndexError` otherwise (modelled with `Option` via `pyIdx`);
* every Python exception (`IndexError`, `KeyError`, `ValueError`,
  `ZeroDivisionError`) is modelled as the result `none`;
* machine integers are `Nat` (all quantities in the program are non-negative
  except list indices, which are `Int`), with masking written as `% 2 ^ w`.
-/

/-- The five arguments of `CacheSimulator.__init__`. -/
structure CacheConfig where
  address_space : Nat
  block_size : Nat
  num_blocks : Nat
  association : Nat
  replacement_policy : String
deriving DecidableEq

/-- Number of cache sets, `self.num_blocks // self.association`
(also the length of `self.cache` and `self.lru_tracker`). -/
def CacheConfig.set_count (cfg : CacheConfig) : Nat :=
  cfg.num_blocks / cfg.association

/-- A Python `dict[int, int]` as an insertion-ordered association list.
Dictionaries produced by the program never contain a key twice. -/
abbrev PyDict := List (Nat × Nat)

/-- `d.get(k)` / `d[k]`: value of the first entry with key `k`. -/
def dictGet : PyDict → Nat → Option Nat
  | [], _ => none
  | p :: d, k => if p.1 = k then some p.2 else dictGet d k

/-- `k in d`. -/
def dictMem (d : PyDict) (k : Nat) : Bool :=
  (dictGet d k).isSome

/-- `d[k] = v`: overwrite in place when the key is present (keeping its
position), append at the end otherwise. -/
def dictSet : PyDict → Nat → Nat → PyDict
  | [], k, v => [(k, v)]
  | p :: d, k, v => if p.1 = k then (k, v) :: d else p :: dictSet d k v

/-- `del d[k]`: remove the entry with key `k`; `KeyError` (i.e. `none`)
when the key is absent. -/
def dictDel : PyDict → Nat → Option PyDict
  | [], _ => none
  | p :: d, k => if p.1 = k then some d else (dictDel d k).map (fun d' => p :: d')

/-- The keys of a dictionary in iteration (insertion) order. -/
def dictKeys (d : PyDict) : List Nat :=
  d.map Prod.fst

/-- Fold step of Python `min(d, key=d.get)`: keep the current best pair,
replace it only when a strictly smaller value appears. -/
def dictMinGo (best : Nat × Nat) : PyDict → Nat × Nat
  | [] => best
  | p :: d => if p.2 < best.2 then dictMinGo p d else dictMinGo best d

/-- `min(d, key=d.get)`: first key with the minimal value; `ValueError`
(i.e. `none`) on an empty dictionary. -/
def dictMinKey : PyDict → Option Nat
  | [] => none
  | p :: d => some (dictMinGo p d).1

/-- Fold step of Python `max(d, key=d.get)`. -/
def dictMaxGo (best : Nat × Nat) : PyDict → Nat × Nat
  | [] => best
  | p :: d => if best.2 < p.2 then dictMaxGo p d else dictMaxGo best d

/-- `max(d, key=d.get)`: first key with the maximal value; `ValueError`
(i.e. `none`) on an empty dictionary. -/
def dictMaxKey : PyDict → Option Nat
  | [] => none
  | p :: d => some (dictMaxGo p d).1

/-- Python list indexing: `xs[i]` for a list of length `len` uses position
`i` when `0 <= i < len`, wraps negative `i` with `-len <= i < 0` to
`len + i`, and raises `IndexError` (i.e. `none`) otherwise. -/
def pyIdx (len : Nat) (i : Int) : Option Nat :=
  if 0 ≤ i ∧ i < (len : Int) then some i.toNat
  else if -(len : Int) ≤ i ∧ i < 0 then some ((len : Int) + i).toNat
  else none

/-- The mutable state of a `CacheSimulator`: `self.cache`,
`self.lru_tracker` and `self.access_counter`. -/
structure SimState where
  cache : List PyDict
  lru_tracker : List PyDict
  access_counter : Nat
deriving DecidableEq

/-- `CacheSimulator.__init__`: no argument validation happens; the only
possible failure is `ZeroDivisionError` on `num_blocks // association`
when `association = 0`. -/
def mkCacheSimulator (cfg : CacheConfig) : Option SimState :=
  if cfg.association = 0 then none
  else some ⟨List.replicate cfg.set_count [], List.replicate cfg.set_count [], 0⟩

/-- `CacheSimulator.parse_address` on the numeric value of the (already
hex-parsed) address string: offset, index and tag are cut out of the
address with shifts and masks; `math.log2` raises `ValueError` on `0`,
and `1 << tag_bits` raises `ValueError` when `tag_bits` is negative. -/
def parse_address (cfg : CacheConfig) (address : Nat) : Option (Nat × Nat × Nat) :=
  if cfg.block_size = 0 ∨ cfg.set_count = 0 then none
  else
    let block_offset_bits := Nat.log2 cfg.block_size
    let index_bits := Nat.log2 cfg.set_count
    if (cfg.address_space : Int) - (index_bits : Int) - (block_offset_bits : Int) < 0 then none
    else
      let tag_bits := cfg.address_space - index_bits - block_offset_bits
      let block_offset := address % 2 ^ block_offset_bits
      let index := (address / 2 ^ block_offset_bits) % 2 ^ index_bits
      let tag := (address / 2 ^ (block_offset_bits + index_bits)) % 2 ^ tag_bits
      some (tag, index, block_offset)

/-- `CacheSimulator.update_tracker`: increment the global access counter,
then stamp the (post-increment) counter onto `self.lru_tracker[index][tag]`. -/
def update_tracker (s : SimState) (index : Int) (tag : Nat) : Option SimState :=
  match pyIdx s.lru_tracker.length index with
  | none => none
  | some i =>
      let c := s.access_counter + 1
      some ⟨s.cache, s.lru_tracker.set i (dictSet (s.lru_tracker.getD i []) tag c), c⟩

/-- `CacheSimulator.replace_entry`: pick the victim from
`self.lru_tracker[index]` according to the policy string (`ValueError`,
i.e. `none`, for an unrecognized policy and for an empty tracker), delete
it from both containers, and store the new tag in `self.cache[index]`
with the current (pre-increment) counter value. -/
def replace_entry (cfg : CacheConfig) (s : SimState) (index : Int) (tag : Nat) :
    Option SimState :=
  match pyIdx s.lru_tracker.length index with
  | none => none
  | some i =>
      let tr := s.lru_tracker.getD i []
      let victim :=
        if cfg.replacement_policy = "LRU" then dictMinKey tr
        else if cfg.replacement_policy = "MRU" then dictMaxKey tr
        else if cfg.replacement_policy = "LOOKAHEAD" then dictMinKey tr
        else none
      match victim with
      | none => none
      | some least_used_tag =>
          match dictDel (s.cache.getD i []) least_used_tag, dictDel tr least_used_tag with
          | some c2, some t2 =>
              some ⟨s.cache.set i (dictSet c2 tag s.access_counter),
                    s.lru_tracker.set i t2, s.access_counter⟩
          | _, _ => none

/-- `CacheSimulator.access_cache`: hit when the tag is resident, otherwise
insert (evicting per policy when the set is full); in every branch the
tracker is updated last via `update_tracker`. -/
def access_cache (cfg : CacheConfig) (s : SimState) (tag : Nat) (index : Int) :
    Option (String × SimState) :=
  match pyIdx s.cache.length index with
  | none => none
  | some i =>
      let set_cache := s.cache.getD i []
      if dictMem set_cache tag then
        (update_tracker s index tag).map (fun s2 => ("H", s2))
      else
        if set_cache.length < cfg.association then
          let s1 : SimState :=
            ⟨s.cache.set i (dictSet set_cache tag s.access_counter),
             s.lru_tracker, s.access_counter⟩
          (update_tracker s1 index tag).map (fun s2 => ("M", s2))
        else
          match replace_entry cfg s index tag with
          | none => none
          | some s1 => (update_tracker s1 index tag).map (fun s2 => ("M", s2))

/-- The per-address loop of `CacheSimulator.simulate`, after address
parsing: perform the accesses in order, collecting the hit/miss strings. -/
def runTrace (cfg : CacheConfig) (s : SimState) :
    List (Nat × Int) → Option (List String × SimState)
  | [] => some ([], s)
  | (tag, index) :: rest =>
      match access_cache cfg s tag index with
      | none => none
      | some (r, s2) =>
          match runTrace cfg s2 rest with
          | none => none
          | some (rs, sf) => some (r :: rs, sf)

/-- States reachable from a freshly constructed simulator by successful
accesses. -/
inductive Reachable (cfg : CacheConfig) : SimState → Prop
  | init (s : SimState) : mkCacheSimulator cfg = some s → Reachable cfg s
  | step (s : SimState) (tag : Nat) (index : Int) (r : String) (s2 : SimState) :
      Reachable cfg s → access_cache cfg s tag index = some (r, s2) → Reachable cfg s2

/-- Invariant maintained by `CacheSimulator` on all reachable states. -/
structure SimInv (cfg : CacheConfig) (s : SimState) : Prop where
  assoc_pos : 0 < cfg.association
  len_cache : s.cache.length = cfg.set_count
  len_tracker : s.lru_tracker.length = cfg.set_count
  keys_eq : ∀ i, dictKeys (s.cache.getD i []) = dictKeys (s.lru_tracker.getD i [])
  keys_nodup : ∀ i, (dictKeys (s.cache.getD i [])).Nodup
  size_le : ∀ i, (s.cache.getD i []).length ≤ cfg.association
  vals_le : ∀ i p, p ∈ s.lru_tracker.getD i [] → p.2 ≤ s.access_counter
  vals_inj : ∀ i j p q, p ∈ s.lru_tracker.getD i [] → q ∈ s.lru_tracker.getD j [] →
      p.2 = q.2 → i = j ∧ p = q

/-- Observational equivalence: equal trackers, equal counters, and
per-set equal cache key lists (cache values are allowed to differ). -/
def ObsEq (s t : SimState) : Prop :=
  s.lru_tracker = t.lru_tracker ∧ s.access_counter = t.access_counter ∧
  s.cache.length = t.cache.length ∧
  ∀ i, dictKeys (s.cache.getD i []) = dictKeys (t.cache.getD i [])

theorem log2_two_pow (n : Nat) : Nat.log2 (2 ^ n) = n := by
  rw [Nat.log2_eq_log_two]
  exact Nat.log_pow (by norm_num) n

theorem mul_pow_lor_eq_add (x y n : Nat) (hy : y < 2 ^ n) :
    (x * 2 ^ n) ||| y = x * 2 ^ n + y := by
  rw [Nat.mul_comm x (2 ^ n)]
  exact (Nat.mul_add_lt_is_or hy x).symm

theorem shiftLeft_lor_eq_add (x y n : Nat) (hy : y < 2 ^ n) :
    (x <<< n) ||| y = x * 2 ^ n + y := by
  rw [Nat.shiftLeft_eq]
  exact mul_pow_lor_eq_add x y n hy

theorem decompose_reassemble (a ob ib tb : Nat) (ha : a < 2 ^ (ob + ib + tb)) :
    ((((a / 2 ^ (ob + ib)) % 2 ^ tb) <<< (ib + ob)) |||
      (((a / 2 ^ ob) % 2 ^ ib) <<< ob)) ||| (a % 2 ^ ob) = a := by
  have ht : (a / 2 ^ (ob + ib)) % 2 ^ tb = a / 2 ^ (ob + ib) := by
    apply Nat.mod_eq_of_lt
    rw [Nat.div_lt_iff_lt_mul (Nat.two_pow_pos _), ← pow_add]
    have hexp : tb + (ob + ib) = ob + ib + tb := by omega
    rw [hexp]
    exact ha
  have hiob : ((a / 2 ^ ob) % 2 ^ ib) <<< ob < 2 ^ (ib + ob) := by
    rw [Nat.shiftLeft_eq, pow_add]
    exact mul_lt_mul_of_pos_right (Nat.mod_lt _ (Nat.two_pow_pos _)) (Nat.two_pow_pos _)
  rw [shiftLeft_lor_eq_add _ _ _ hiob, Nat.shiftLeft_eq]
  have hfactor : ((a / 2 ^ (ob + ib)) % 2 ^ tb) * 2 ^ (ib + ob)
      + ((a / 2 ^ ob) % 2 ^ ib) * 2 ^ ob
      = (((a / 2 ^ (ob + ib)) % 2 ^ tb) * 2 ^ ib + (a / 2 ^ ob) % 2 ^ ib) * 2 ^ ob := by
    rw [pow_add]
    ring
  rw [hfactor, mul_pow_lor_eq_add _ _ _ (Nat.mod_lt _ (Nat.two_pow_pos _)), ht]
  have h1 : (a / 2 ^ (ob + ib)) * 2 ^ ib + (a / 2 ^ ob) % 2 ^ ib = a / 2 ^ ob := by
    rw [pow_add, ← Nat.div_div_eq_div_mul, Nat.mul_comm]
    exact Nat.div_add_mod _ _
  have h2 : (a / 2 ^ ob) * 2 ^ ob + a % 2 ^ ob = a := by
    rw [Nat.mul_comm]
    exact Nat.div_add_mod _ _
  rw [h1, h2]

/-- C1: for every geometry satisfying the invariants (`block_size` and
`set_count` powers of two, `tag_bits >= 0`) and every address below
`2 ^ address_bits`, `parse_address` returns `(tag, index, offset)` with
`offset < block_size` and `index < set_count`, and reassembling
`(tag <<< (index_bits + offset_bits)) ||| (index <<< offset_bits) ||| offset`
masked to `address_bits` bits gives back the original address. -/
theorem parse_address_roundtrip (cfg : CacheConfig) (address ob ib : Nat)
    (hbs : cfg.block_size = 2 ^ ob)
    (hsc : cfg.set_count = 2 ^ ib)
    (htb : ib + ob ≤ cfg.address_space)
    (haddr : address < 2 ^ cfg.address_space) :
    ∃ tag index offset,
      parse_address cfg address = some (tag, index, offset) ∧
      offset < cfg.block_size ∧ index < cfg.set_count ∧
      (((tag <<< (ib + ob)) ||| (index <<< ob)) ||| offset) % 2 ^ cfg.address_space
        = address := by
  have hbs0 : cfg.block_size ≠ 0 := by rw [hbs]; positivity
  have hsc0 : cfg.set_count ≠ 0 := by rw [hsc]; positivity
  have hob : Nat.log2 cfg.block_size = ob := by rw [hbs]; exact log2_two_pow ob
  have hib : Nat.log2 cfg.set_count = ib := by rw [hsc]; exact log2_two_pow ib
  have hguard : ¬ ((cfg.address_space : Int) - (ib : Int) - (ob : Int) < 0) := by
    push_neg
    omega
  have heq : parse_address cfg address
      = some ((address / 2 ^ (ob + ib)) % 2 ^ (cfg.address_space - ib - ob),
              (address / 2 ^ ob) % 2 ^ ib,
              address % 2 ^ ob) := by
    unfold parse_address
    rw [if_neg (by simp [hbs0, hsc0])]
    simp only [hob, hib]
    rw [if_neg hguard]
  refine ⟨_, _, _, heq, ?_, ?_, ?_⟩
  · rw [hbs]
    exact Nat.mod_lt _ (Nat.two_pow_pos _)
  · rw [hsc]
    exact Nat.mod_lt _ (Nat.two_pow_pos _)
  · have hAS : cfg.address_space = ob + ib + (cfg.address_space - ib - ob) := by omega
    have hre := decompose_reassemble address ob ib (cfg.address_space - ib - ob)
      (by rw [← hAS]; exact haddr)
    rw [hre]
    exact Nat.mod_eq_of_lt haddr

theorem parse_address_roundtrip_witness :
    ∃ tag index offset,
      parse_address ⟨8, 4, 4, 1, "LRU"⟩ 47 = some (tag, index, offset) ∧
      offset < (⟨8, 4, 4, 1, "LRU"⟩ : CacheConfig).block_size ∧
      index < CacheConfig.set_count ⟨8, 4, 4, 1, "LRU"⟩ ∧
      (((tag <<< (2 + 2)) ||| (index <<< 2)) ||| offset) %
        2 ^ (⟨8, 4, 4, 1, "LRU"⟩ : CacheConfig).address_space = 47 :=
  parse_address_roundtrip ⟨8, 4, 4, 1, "LRU"⟩ 47 2 2 (by decide) (by decide)
    (by decide) (by decide)

theorem dictKeys_cons (p : Nat × Nat) (d : PyDict) :
    dictKeys (p :: d) = p.1 :: dictKeys d := rfl

theorem dictMem_iff (d : PyDict) (k : Nat) : dictMem d k = true ↔ k ∈ dictKeys d := by
  induction d with
  | nil => simp [dictMem, dictGet, dictKeys]
  | cons p d ih =>
    by_cases h : p.1 = k
    · subst h
      simp [dictMem, dictGet, dictKeys_cons]
    · rw [dictKeys_cons]
      simp only [List.mem_cons]
      rw [show dictMem (p :: d) k = dictMem d k from by simp [dictMem, dictGet, h]]
      rw [ih]
      constructor
      · exact fun hm => Or.inr hm
      · rintro (rfl | hm)
        · exact absurd rfl h
        · exact hm

theorem dictMem_false_iff (d : PyDict) (k : Nat) :
    dictMem d k = false ↔ k ∉ dictKeys d := by
  rw [← dictMem_iff]
  cases hm : dictMem d k <;> simp

theorem dictKeys_dictSet_mem (d : PyDict) (k v : Nat) (h : dictMem d k = true) :
    dictKeys (dictSet d k v) = dictKeys d := by
  induction d with
  | nil => simp [dictMem, dictGet] at h
  | cons p d ih =>
    by_cases hp : p.1 = k
    · subst hp
      simp [dictSet, dictKeys_cons]
    · rw [show dictMem (p :: d) k = dictMem d k from by simp [dictMem, dictGet, hp]] at h
      simp only [dictSet, if_neg hp]
      rw [dictKeys_cons, dictKeys_cons, ih h]

theorem dictKeys_dictSet_not_mem (d : PyDict) (k v : Nat) (h : dictMem d k = false) :
    dictKeys (dictSet d k v) = dictKeys d ++ [k] := by
  induction d with
  | nil => simp [dictSet, dictKeys]
  | cons p d ih =>
    by_cases hp : p.1 = k
    · subst hp
      simp [dictMem, dictGet] at h
    · rw [show dictMem (p :: d) k = dictMem d k from by simp [dictMem, dictGet, hp]] at h
      simp only [dictSet, if_neg hp]
      rw [dictKeys_cons, dictKeys_cons, ih h, List.cons_append]

theorem dictGet_dictSet_self (d : PyDict) (k v : Nat) :
    dictGet (dictSet d k v) k = some v := by
  induction d with
  | nil => simp [dictSet, dictGet]
  | cons p d ih =>
    by_cases hp : p.1 = k
    · simp [dictSet, dictGet, hp]
    · simp [dictSet, dictGet, hp, ih]

theorem dictGet_dictSet_ne (d : PyDict) (k v k' : Nat) (h : k' ≠ k) :
    dictGet (dictSet d k v) k' = dictGet d k' := by
  have h' : k ≠ k' := Ne.symm h
  induction d with
  | nil => simp [dictSet, dictGet, h']
  | cons p d ih =>
    by_cases hp : p.1 = k
    · subst hp
      simp [dictSet, dictGet, h']
    · simp only [dictSet, if_neg hp, dictGet]
      rw [ih]

theorem length_dictSet_mem (d : PyDict) (k v : Nat) (h : dictMem d k = true) :
    (dictSet d k v).length = d.length := by
  have hk := dictKeys_dictSet_mem d k v h
  have h1 : (dictKeys (dictSet d k v)).length = (dictKeys d).length := by rw [hk]
  simpa [dictKeys] using h1

theorem length_dictSet_not_mem (d : PyDict) (k v : Nat) (h : dictMem d k = false) :
    (dictSet d k v).length = d.length + 1 := by
  have hk := dictKeys_dictSet_not_mem d k v h
  have h1 : (dictKeys (dictSet d k v)).length = (dictKeys d ++ [k]).length := by rw [hk]
  simpa [dictKeys] using h1

theorem dictDel_eq_none (d : PyDict) (k : Nat) (h : dictMem d k = false) :
    dictDel d k = none := by
  induction d with
  | nil => rfl
  | cons p d ih =>
    by_cases hp : p.1 = k
    · subst hp
      simp [dictMem, dictGet] at h
    · rw [show dictMem (p :: d) k = dictMem d k from by simp [dictMem, dictGet, hp]] at h
      simp [dictDel, hp, ih h]

theorem dictDel_isSome (d : PyDict) (k : Nat) (h : dictMem d k = true) :
    ∃ d', dictDel d k = some d' := by
  induction d with
  | nil => simp [dictMem, dictGet] at h
  | cons p d ih =>
    by_cases hp : p.1 = k
    · exact ⟨d, by simp [dictDel, hp]⟩
    · rw [show dictMem (p :: d) k = dictMem d k from by simp [dictMem, dictGet, hp]] at h
      obtain ⟨d', hd'⟩ := ih h
      exact ⟨p :: d', by simp [dictDel, hp, hd']⟩

theorem dictKeys_dictDel (d : PyDict) (k : Nat) (d' : PyDict)
    (h : dictDel d k = some d') : dictKeys d' = (dictKeys d).erase k := by
  induction d generalizing d' with
  | nil => cases h
  | cons p d ih =>
    by_cases hp : p.1 = k
    · subst hp
      simp [dictDel] at h
      subst h
      rw [dictKeys_cons, List.erase_cons_head]
    · simp only [dictDel, if_neg hp, Option.map_eq_some'] at h
      obtain ⟨d2, hd2, rfl⟩ := h
      rw [dictKeys_cons, dictKeys_cons, List.erase_cons_tail, ih d2 hd2]
      simp [hp]

theorem length_dictDel (d : PyDict) (k : Nat) (d' : PyDict)
    (h : dictDel d k = some d') : d.length = d'.length + 1 := by
  induction d generalizing d' with
  | nil => cases h
  | cons p d ih =>
    by_cases hp : p.1 = k
    · simp only [dictDel, if_pos hp, Option.some.injEq] at h
      subst h
      simp
    · simp only [dictDel, if_neg hp, Option.map_eq_some'] at h
      obtain ⟨d2, hd2, rfl⟩ := h
      simp [ih d2 hd2]

theorem mem_of_mem_dictDel (d : PyDict) (k : Nat) (d' : PyDict)
    (h : dictDel d k = some d') (p : Nat × Nat) (hp : p ∈ d') : p ∈ d := by
  induction d generalizing d' with
  | nil => cases h
  | cons q d ih =>
    by_cases hq : q.1 = k
    · simp only [dictDel, if_pos hq, Option.some.injEq] at h
      subst h
      exact List.mem_cons_of_mem _ hp
    · simp only [dictDel, if_neg hq, Option.map_eq_some'] at h
      obtain ⟨d2, hd2, rfl⟩ := h
      cases List.mem_cons.mp hp with
      | inl e => exact e ▸ List.mem_cons_self _ _
      | inr m => exact List.mem_cons_of_mem _ (ih d2 hd2 m)

theorem dictGet_mem (d : PyDict) (k v : Nat) (h : dictGet d k = some v) : (k, v) ∈ d := by
  induction d with
  | nil => cases h
  | cons p d ih =>
    by_cases hp : p.1 = k
    · rw [dictGet, if_pos hp] at h
      injection h with h1
      subst h1
      subst hp
      exact List.mem_cons_self _ _
    · rw [dictGet, if_neg hp] at h
      exact List.mem_cons_of_mem _ (ih h)

theorem mem_dictGet (d : PyDict) (hnd : (dictKeys d).Nodup) (p : Nat × Nat)
    (hp : p ∈ d) : dictGet d p.1 = some p.2 := by
  induction d with
  | nil => cases hp
  | cons q d ih =>
    rw [dictKeys_cons, List.nodup_cons] at hnd
    cases List.mem_cons.mp hp with
    | inl e =>
      subst e
      rw [dictGet, if_pos rfl]
    | inr m =>
      have hq : q.1 ≠ p.1 := by
        intro he
        exact hnd.1 (he ▸ List.mem_map_of_mem Prod.fst m)
      rw [dictGet, if_neg hq]
      exact ih hnd.2 m

theorem mem_dictSet_iff (d : PyDict) (hnd : (dictKeys d).Nodup) (k v : Nat)
    (p : Nat × Nat) : p ∈ dictSet d k v ↔ p = (k, v) ∨ (p ∈ d ∧ p.1 ≠ k) := by
  induction d with
  | nil => simp [dictSet]
  | cons q d ih =>
    rw [dictKeys_cons, List.nodup_cons] at hnd
    by_cases hq : q.1 = k
    · simp only [dictSet, if_pos hq, List.mem_cons]
      constructor
      · rintro (hp | hm)
        · exact Or.inl hp
        · refine Or.inr ⟨Or.inr hm, ?_⟩
          intro he
          exact hnd.1 (by rw [hq]; exact he ▸ List.mem_map_of_mem Prod.fst hm)
      · rintro (hp | ⟨(hp | hm), hne⟩)
        · exact Or.inl hp
        · exact absurd (by rw [hp, hq]) hne
        · exact Or.inr hm
    · simp only [dictSet, if_neg hq, List.mem_cons, ih hnd.2]
      constructor
      · rintro (hp | hp | ⟨hm, hne⟩)
        · exact Or.inr ⟨Or.inl hp, by rw [hp]; exact hq⟩
        · exact Or.inl hp
        · exact Or.inr ⟨Or.inr hm, hne⟩
      · rintro (hp | ⟨(hp | hm), hne⟩)
        · exact Or.inr (Or.inl hp)
        · exact Or.inl hp
        · exact Or.inr (Or.inr ⟨hm, hne⟩)

theorem mem_dictDel_iff (d : PyDict) (hnd : (dictKeys d).Nodup) (k : Nat) (d' : PyDict)
    (h : dictDel d k = some d') (p : Nat × Nat) : p ∈ d' ↔ p ∈ d ∧ p.1 ≠ k := by
  induction d generalizing d' with
  | nil => cases h
  | cons q d ih =>
    rw [dictKeys_cons, List.nodup_cons] at hnd
    by_cases hq : q.1 = k
    · simp only [dictDel, if_pos hq, Option.some.injEq] at h
      subst h
      simp only [List.mem_cons]
      constructor
      · intro hm
        refine ⟨Or.inr hm, ?_⟩
        intro he
        exact hnd.1 (by rw [hq]; exact he ▸ List.mem_map_of_mem Prod.fst hm)
      · rintro ⟨(hp | hm), hne⟩
        · exact absurd (by rw [hp, hq]) hne
        · exact hm
    · simp only [dictDel, if_neg hq, Option.map_eq_some'] at h
      obtain ⟨d2, hd2, rfl⟩ := h
      simp only [List.mem_cons, ih hnd.2 d2 hd2]
      constructor
      · rintro (rfl | ⟨hm, hne⟩)
        · exact ⟨Or.inl rfl, hq⟩
        · exact ⟨Or.inr hm, hne⟩
      · rintro ⟨(rfl | hm), hne⟩
        · exact Or.inl rfl
        · exact Or.inr ⟨hm, hne⟩

theorem nodup_dictSet (d : PyDict) (k v : Nat) (hnd : (dictKeys d).Nodup) :
    (dictKeys (dictSet d k v)).Nodup := by
  cases hm : dictMem d k with
  | true => rw [dictKeys_dictSet_mem d k v hm]; exact hnd
  | false =>
    rw [dictKeys_dictSet_not_mem d k v hm]
    have hk : k ∉ dictKeys d := (dictMem_false_iff d k).mp hm
    simp [List.nodup_append, hnd, hk]

theorem nodup_dictDel (d : PyDict) (k : Nat) (d' : PyDict)
    (hnd : (dictKeys d).Nodup) (h : dictDel d k = some d') :
    (dictKeys d').Nodup := by
  rw [dictKeys_dictDel d k d' h]
  exact hnd.erase k

theorem dictMinGo_spec (d : PyDict) (best : Nat × Nat) :
    (dictMinGo best d = best ∨ dictMinGo best d ∈ d) ∧
    (dictMinGo best d).2 ≤ best.2 ∧ ∀ p ∈ d, (dictMinGo best d).2 ≤ p.2 := by
  induction d generalizing best with
  | nil => simp [dictMinGo]
  | cons q rest ih =>
    rw [dictMinGo]
    by_cases h : q.2 < best.2
    · rw [if_pos h]
      obtain ⟨hmem, hle, hall⟩ := ih q
      refine ⟨?_, ?_, ?_⟩
      · cases hmem with
        | inl e => exact Or.inr (by rw [e]; exact List.mem_cons_self _ _)
        | inr m => exact Or.inr (List.mem_cons_of_mem _ m)
      · exact le_trans hle (le_of_lt h)
      · intro p hp
        cases List.mem_cons.mp hp with
        | inl e => rw [e]; exact hle
        | inr m => exact hall p m
    · rw [if_neg h]
      obtain ⟨hmem, hle, hall⟩ := ih best
      refine ⟨?_, ?_, ?_⟩
      · cases hmem with
        | inl e => exact Or.inl e
        | inr m => exact Or.inr (List.mem_cons_of_mem _ m)
      · exact hle
      · intro p hp
        cases List.mem_cons.mp hp with
        | inl e => rw [e]; exact le_trans hle (le_of_not_lt h)
        | inr m => exact hall p m

theorem dictMinKey_spec (d : PyDict) (k : Nat) (h : dictMinKey d = some k) :
    ∃ v, (k, v) ∈ d ∧ ∀ p ∈ d, v ≤ p.2 := by
  cases d with
  | nil => cases h
  | cons q rest =>
    rw [dictMinKey] at h
    injection h with h1
    obtain ⟨hmem, hle, hall⟩ := dictMinGo_spec rest q
    refine ⟨(dictMinGo q rest).2, ?_, ?_⟩
    · rw [← h1, Prod.mk.eta]
      cases hmem with
      | inl e => rw [e]; exact List.mem_cons_self _ _
      | inr m => exact List.mem_cons_of_mem _ m
    · intro p hp
      cases List.mem_cons.mp hp with
      | inl e => rw [e]; exact hle
      | inr m => exact hall p m

theorem dictMaxGo_spec (d : PyDict) (best : Nat × Nat) :
    (dictMaxGo best d = best ∨ dictMaxGo best d ∈ d) ∧
    best.2 ≤ (dictMaxGo best d).2 ∧ ∀ p ∈ d, p.2 ≤ (dictMaxGo best d).2 := by
  induction d generalizing best with
  | nil => simp [dictMaxGo]
  | cons q rest ih =>
    rw [dictMaxGo]
    by_cases h : best.2 < q.2
    · rw [if_pos h]
      obtain ⟨hmem, hle, hall⟩ := ih q
      refine ⟨?_, ?_, ?_⟩
      · cases hmem with
        | inl e => exact Or.inr (by rw [e]; exact List.mem_cons_self _ _)
        | inr m => exact Or.inr (List.mem_cons_of_mem _ m)
      · exact le_trans (le_of_lt h) hle
      · intro p hp
        cases List.mem_cons.mp hp with
        | inl e => rw [e]; exact hle
        | inr m => exact hall p m
    · rw [if_neg h]
      obtain ⟨hmem, hle, hall⟩ := ih best
      refine ⟨?_, ?_, ?_⟩
      · cases hmem with
        | inl e => exact Or.inl e
        | inr m => exact Or.inr (List.mem_cons_of_mem _ m)
      · exact hle
      · intro p hp
        cases List.mem_cons.mp hp with
        | inl e => rw [e]; exact le_trans (le_of_not_lt h) hle
        | inr m => exact hall p m

theorem dictMaxKey_spec (d : PyDict) (k : Nat) (h : dictMaxKey d = some k) :
    ∃ v, (k, v) ∈ d ∧ ∀ p ∈ d, p.2 ≤ v := by
  cases d with
  | nil => cases h
  | cons q rest =>
    rw [dictMaxKey] at h
    injection h with h1
    obtain ⟨hmem, hle, hall⟩ := dictMaxGo_spec rest q
    refine ⟨(dictMaxGo q rest).2, ?_, ?_⟩
    · rw [← h1, Prod.mk.eta]
      cases hmem with
      | inl e => rw [e]; exact List.mem_cons_self _ _
      | inr m => exact List.mem_cons_of_mem _ m
    · intro p hp
      cases List.mem_cons.mp hp with
      | inl e => rw [e]; exact hle
      | inr m => exact hall p m

theorem dictMinKey_of_ne_nil (d : PyDict) (h : d ≠ []) : ∃ k, dictMinKey d = some k := by
  cases d with
  | nil => exact absurd rfl h
  | cons q rest => exact ⟨_, rfl⟩

theorem dictMaxKey_of_ne_nil (d : PyDict) (h : d ≠ []) : ∃ k, dictMaxKey d = some k := by
  cases d with
  | nil => exact absurd rfl h
  | cons q rest => exact ⟨_, rfl⟩

theorem pyIdx_lt (len : Nat) (index : Int) (i : Nat) (h : pyIdx len index = some i) :
    i < len := by
  unfold pyIdx at h
  by_cases h1 : 0 ≤ index ∧ index < (len : Int)
  · rw [if_pos h1] at h
    injection h with h2
    omega
  · rw [if_neg h1] at h
    by_cases h2 : -(len : Int) ≤ index ∧ index < 0
    · rw [if_pos h2] at h
      injection h with h3
      omega
    · rw [if_neg h2] at h
      cases h

theorem pyIdx_natCast (len i : Nat) (h : i < len) : pyIdx len (i : Int) = some i := by
  unfold pyIdx
  rw [if_pos ⟨by positivity, by exact_mod_cast h⟩]
  rw [Int.toNat_natCast]

theorem getD_set_self (l : List PyDict) (i : Nat) (x : PyDict) (h : i < l.length) :
    (l.set i x).getD i [] = x := by
  rw [List.getD_eq_getElem?_getD, List.getElem?_set_eq_of_lt x h]
  rfl

theorem getD_set_ne (l : List PyDict) (i j : Nat) (x : PyDict) (h : i ≠ j) :
    (l.set i x).getD j [] = l.getD j [] := by
  rw [List.getD_eq_getElem?_getD, List.getD_eq_getElem?_getD, List.getElem?_set_ne h]

theorem getD_replicate_nil (n i : Nat) :
    (List.replicate n ([] : PyDict)).getD i [] = [] := by
  rw [List.getD_eq_getElem?_getD, List.getElem?_replicate]
  split <;> rfl

theorem update_tracker_eq (s : SimState) (index : Int) (tag : Nat) (i : Nat)
    (h : pyIdx s.lru_tracker.length index = some i) :
    update_tracker s index tag = some
      ⟨s.cache,
       s.lru_tracker.set i (dictSet (s.lru_tracker.getD i []) tag (s.access_counter + 1)),
       s.access_counter + 1⟩ := by
  unfold update_tracker
  rw [h]

theorem access_hit_eq (cfg : CacheConfig) (s : SimState) (tag : Nat) (index : Int) (i : Nat)
    (hidx : pyIdx s.cache.length index = some i)
    (hlen : s.lru_tracker.length = s.cache.length)
    (hmem : dictMem (s.cache.getD i []) tag = true) :
    access_cache cfg s tag index = some ("H",
      ⟨s.cache,
       s.lru_tracker.set i (dictSet (s.lru_tracker.getD i []) tag (s.access_counter + 1)),
       s.access_counter + 1⟩) := by
  simp only [access_cache, hidx]
  rw [if_pos hmem, update_tracker_eq s index tag i (by rw [hlen]; exact hidx)]
  rfl

theorem access_miss_space_eq (cfg : CacheConfig) (s : SimState) (tag : Nat) (index : Int)
    (i : Nat)
    (hidx : pyIdx s.cache.length index = some i)
    (hlen : s.lru_tracker.length = s.cache.length)
    (hmem : dictMem (s.cache.getD i []) tag = false)
    (hsp : (s.cache.getD i []).length < cfg.association) :
    access_cache cfg s tag index = some ("M",
      ⟨s.cache.set i (dictSet (s.cache.getD i []) tag s.access_counter),
       s.lru_tracker.set i (dictSet (s.lru_tracker.getD i []) tag (s.access_counter + 1)),
       s.access_counter + 1⟩) := by
  simp only [access_cache, hidx]
  rw [if_neg (by rw [hmem]; exact Bool.false_ne_true), if_pos hsp]
  rw [update_tracker_eq
    ⟨s.cache.set i (dictSet (s.cache.getD i []) tag s.access_counter),
     s.lru_tracker, s.access_counter⟩ index tag i (by rw [hlen]; exact hidx)]
  rfl

theorem replace_entry_eq (cfg : CacheConfig) (s : SimState) (index : Int) (tag : Nat)
    (i e : Nat)
    (hidx : pyIdx s.lru_tracker.length index = some i)
    (hvic : (if cfg.replacement_policy = "LRU" then dictMinKey (s.lru_tracker.getD i [])
             else if cfg.replacement_policy = "MRU" then dictMaxKey (s.lru_tracker.getD i [])
             else if cfg.replacement_policy = "LOOKAHEAD" then
               dictMinKey (s.lru_tracker.getD i [])
             else none) = some e)
    (hc : dictMem (s.cache.getD i []) e = true)
    (ht : dictMem (s.lru_tracker.getD i []) e = true) :
    ∃ c2 t2, dictDel (s.cache.getD i []) e = some c2 ∧
      dictDel (s.lru_tracker.getD i []) e = some t2 ∧
      replace_entry cfg s index tag = some
        ⟨s.cache.set i (dictSet c2 tag s.access_counter),
         s.lru_tracker.set i t2, s.access_counter⟩ := by
  obtain ⟨c2, hc2⟩ := dictDel_isSome _ _ hc
  obtain ⟨t2, ht2⟩ := dictDel_isSome _ _ ht
  refine ⟨c2, t2, hc2, ht2, ?_⟩
  simp only [replace_entry, hidx, hvic, hc2, ht2]

theorem access_miss_evict_eq (cfg : CacheConfig) (s : SimState) (tag : Nat) (index : Int)
    (i : Nat) (c2 t2 : PyDict)
    (hidx : pyIdx s.cache.length index = some i)
    (hlen : s.lru_tracker.length = s.cache.length)
    (hmem : dictMem (s.cache.getD i []) tag = false)
    (hfull : ¬ (s.cache.getD i []).length < cfg.association)
    (hrep : replace_entry cfg s index tag = some
      ⟨s.cache.set i (dictSet c2 tag s.access_counter),
       s.lru_tracker.set i t2, s.access_counter⟩) :
    access_cache cfg s tag index = some ("M",
      ⟨s.cache.set i (dictSet c2 tag s.access_counter),
       s.lru_tracker.set i (dictSet t2 tag (s.access_counter + 1)),
       s.access_counter + 1⟩) := by
  have hi : i < s.cache.length := pyIdx_lt _ _ _ hidx
  have hit : i < s.lru_tracker.length := by rw [hlen]; exact hi
  have hmain : Option.map (fun s2 => ("M", s2))
      (update_tracker ⟨s.cache.set i (dictSet c2 tag s.access_counter),
        s.lru_tracker.set i t2, s.access_counter⟩ index tag) =
      some ("M",
        (⟨s.cache.set i (dictSet c2 tag s.access_counter),
          s.lru_tracker.set i (dictSet t2 tag (s.access_counter + 1)),
          s.access_counter + 1⟩ : SimState)) := by
    rw [update_tracker_eq _ index tag i
      (by simp only [List.length_set]; rw [hlen]; exact hidx)]
    simp only [Option.map_some']
    congr 1
    congr 1
    simp only [List.set_set]
    rw [getD_set_self s.lru_tracker i t2 hit]
  simp only [access_cache, hidx]
  rw [if_neg (by rw [hmem]; exact Bool.false_ne_true), if_neg hfull, hrep]
  exact hmain

theorem victim_mem (cfg : CacheConfig) (tr : PyDict) (e : Nat)
    (h : (if cfg.replacement_policy = "LRU" then dictMinKey tr
          else if cfg.replacement_policy = "MRU" then dictMaxKey tr
          else if cfg.replacement_policy = "LOOKAHEAD" then dictMinKey tr
          else none) = some e) : ∃ v, (e, v) ∈ tr := by
  split at h
  · obtain ⟨v, hv, _⟩ := dictMinKey_spec tr e h
    exact ⟨v, hv⟩
  · split at h
    · obtain ⟨v, hv, _⟩ := dictMaxKey_spec tr e h
      exact ⟨v, hv⟩
    · split at h
      · obtain ⟨v, hv, _⟩ := dictMinKey_spec tr e h
        exact ⟨v, hv⟩
      · cases h

theorem access_cases (cfg : CacheConfig) (s : SimState) (tag : Nat) (index : Int)
    (r : String) (s' : SimState)
    (hlen : s.lru_tracker.length = s.cache.length)
    (h : access_cache cfg s tag index = some (r, s')) :
    ∃ i, pyIdx s.cache.length index = some i ∧
      ((dictMem (s.cache.getD i []) tag = true ∧ r = "H" ∧
        s' = ⟨s.cache,
          s.lru_tracker.set i
            (dictSet (s.lru_tracker.getD i []) tag (s.access_counter + 1)),
          s.access_counter + 1⟩) ∨
       (dictMem (s.cache.getD i []) tag = false ∧
        (s.cache.getD i []).length < cfg.association ∧ r = "M" ∧
        s' = ⟨s.cache.set i (dictSet (s.cache.getD i []) tag s.access_counter),
          s.lru_tracker.set i
            (dictSet (s.lru_tracker.getD i []) tag (s.access_counter + 1)),
          s.access_counter + 1⟩) ∨
       (∃ e c2 t2, dictMem (s.cache.getD i []) tag = false ∧
         ¬ (s.cache.getD i []).length < cfg.association ∧
         (if cfg.replacement_policy = "LRU" then dictMinKey (s.lru_tracker.getD i [])
          else if cfg.replacement_policy = "MRU" then dictMaxKey (s.lru_tracker.getD i [])
          else if cfg.replacement_policy = "LOOKAHEAD" then
            dictMinKey (s.lru_tracker.getD i [])
          else none) = some e ∧
         dictDel (s.cache.getD i []) e = some c2 ∧
         dictDel (s.lru_tracker.getD i []) e = some t2 ∧ r = "M" ∧
         s' = ⟨s.cache.set i (dictSet c2 tag s.access_counter),
           s.lru_tracker.set i (dictSet t2 tag (s.access_counter + 1)),
           s.access_counter + 1⟩)) := by
  cases hpy : pyIdx s.cache.length index with
  | none =>
    simp only [access_cache, hpy] at h
    exact Option.noConfusion h
  | some i =>
    have hidx' : pyIdx s.lru_tracker.length index = some i := by rw [hlen]; exact hpy
    refine ⟨i, rfl, ?_⟩
    cases hmem : dictMem (s.cache.getD i []) tag with
    | true =>
      have h' := access_hit_eq cfg s tag index i hpy hlen hmem
      rw [h'] at h
      injection h with h1
      injection h1 with hr hs
      exact Or.inl ⟨rfl, hr.symm, hs.symm⟩
    | false =>
      by_cases hsp : (s.cache.getD i []).length < cfg.association
      · have h' := access_miss_space_eq cfg s tag index i hpy hlen hmem hsp
        rw [h'] at h
        injection h with h1
        injection h1 with hr hs
        exact Or.inr (Or.inl ⟨rfl, hsp, hr.symm, hs.symm⟩)
      · cases hvic : (if cfg.replacement_policy = "LRU" then
            dictMinKey (s.lru_tracker.getD i [])
          else if cfg.replacement_policy = "MRU" then
            dictMaxKey (s.lru_tracker.getD i [])
          else if cfg.replacement_policy = "LOOKAHEAD" then
            dictMinKey (s.lru_tracker.getD i [])
          else none) with
        | none =>
          have hrep : replace_entry cfg s index tag = none := by
            simp only [replace_entry, hidx', hvic]
          have hnone : access_cache cfg s tag index = none := by
            simp only [access_cache, hpy]
            rw [if_neg (by rw [hmem]; exact Bool.false_ne_true), if_neg hsp, hrep]
          rw [hnone] at h
          cases h
        | some e =>
          cases hdelc : dictDel (s.cache.getD i []) e with
          | none =>
            have hrep : replace_entry cfg s index tag = none := by
              simp only [replace_entry, hidx', hvic, hdelc]
            have hnone : access_cache cfg s tag index = none := by
              simp only [access_cache, hpy]
              rw [if_neg (by rw [hmem]; exact Bool.false_ne_true), if_neg hsp, hrep]
            rw [hnone] at h
            cases h
          | some c2 =>
            cases hdelt : dictDel (s.lru_tracker.getD i []) e with
            | none =>
              have hrep : replace_entry cfg s index tag = none := by
                simp only [replace_entry, hidx', hvic, hdelc, hdelt]
              have hnone : access_cache cfg s tag index = none := by
                simp only [access_cache, hpy]
                rw [if_neg (by rw [hmem]; exact Bool.false_ne_true), if_neg hsp, hrep]
              rw [hnone] at h
              cases h
            | some t2 =>
              have hrep : replace_entry cfg s index tag = some
                  ⟨s.cache.set i (dictSet c2 tag s.access_counter),
                   s.lru_tracker.set i t2, s.access_counter⟩ := by
                simp only [replace_entry, hidx', hvic, hdelc, hdelt]
              have h' := access_miss_evict_eq cfg s tag index i c2 t2 hpy hlen hmem hsp hrep
              rw [h'] at h
              injection h with h1
              injection h1 with hr hs
              exact Or.inr (Or.inr ⟨e, c2, t2, rfl, hsp, rfl, hdelc, hdelt,
                hr.symm, hs.symm⟩)

theorem mem_tracker_update (told : List PyDict) (i : Nat) (hi : i < told.length)
    (T' : PyDict) (tag c' : Nat) (hnd : (dictKeys T').Nodup)
    (hsub : ∀ p, p ∈ T' → p ∈ told.getD i []) :
    ∀ j p, p ∈ (told.set i (dictSet T' tag c')).getD j [] →
      (j = i ∧ p = (tag, c')) ∨ p ∈ told.getD j [] := by
  intro j p hp
  by_cases hj : i = j
  · subst hj
    rw [getD_set_self _ _ _ hi] at hp
    rcases (mem_dictSet_iff T' hnd tag c' p).mp hp with h1 | ⟨h2, _⟩
    · exact Or.inl ⟨rfl, h1⟩
    · exact Or.inr (hsub p h2)
  · rw [getD_set_ne _ _ _ _ hj] at hp
    exact Or.inr hp

theorem tracker_inv_update (cfg : CacheConfig) (s : SimState) (inv : SimInv cfg s)
    (i : Nat) (hi : i < s.lru_tracker.length) (T' : PyDict) (tag : Nat)
    (hnd : (dictKeys T').Nodup)
    (hsub : ∀ p, p ∈ T' → p ∈ s.lru_tracker.getD i []) :
    (∀ j p, p ∈ (s.lru_tracker.set i (dictSet T' tag (s.access_counter + 1))).getD j [] →
       p.2 ≤ s.access_counter + 1) ∧
    (∀ j1 j2 p q,
       p ∈ (s.lru_tracker.set i (dictSet T' tag (s.access_counter + 1))).getD j1 [] →
       q ∈ (s.lru_tracker.set i (dictSet T' tag (s.access_counter + 1))).getD j2 [] →
       p.2 = q.2 → j1 = j2 ∧ p = q) := by
  have hchar := mem_tracker_update s.lru_tracker i hi T' tag (s.access_counter + 1) hnd hsub
  constructor
  · intro j p hp
    rcases hchar j p hp with ⟨_, rfl⟩ | hold
    · exact le_refl _
    · exact le_trans (inv.vals_le j p hold) (Nat.le_succ _)
  · intro j1 j2 p q hp hq heq
    rcases hchar j1 p hp with ⟨hj1, rfl⟩ | hp'
    · rcases hchar j2 q hq with ⟨hj2, rfl⟩ | hq'
      · exact ⟨hj1.trans hj2.symm, rfl⟩
      · exfalso
        have hv := inv.vals_le j2 q hq'
        simp only at heq
        omega
    · rcases hchar j2 q hq with ⟨hj2, rfl⟩ | hq'
      · exfalso
        have hv := inv.vals_le j1 p hp'
        simp only at heq
        omega
      · exact inv.vals_inj j1 j2 p q hp' hq' heq

theorem siminv_step (cfg : CacheConfig) (s : SimState) (tag : Nat) (index : Int)
    (r : String) (s' : SimState) (inv : SimInv cfg s)
    (h : access_cache cfg s tag index = some (r, s')) : SimInv cfg s' := by
  have hlen : s.lru_tracker.length = s.cache.length := by
    rw [inv.len_tracker, inv.len_cache]
  obtain ⟨i, hpy, hbr⟩ := access_cases cfg s tag index r s' hlen h
  have hi : i < s.cache.length := pyIdx_lt _ _ _ hpy
  have hitr : i < s.lru_tracker.length := by rw [hlen]; exact hi
  have hndT : (dictKeys (s.lru_tracker.getD i [])).Nodup := by
    rw [← inv.keys_eq i]
    exact inv.keys_nodup i
  rcases hbr with ⟨hmem, hr, hs⟩ | ⟨hmem, hsp, hr, hs⟩ |
    ⟨e, c2, t2, hmem, hsp, hvic, hdelc, hdelt, hr, hs⟩
  · -- hit branch
    subst hs
    have htagT : dictMem (s.lru_tracker.getD i []) tag = true := by
      rw [dictMem_iff] at hmem ⊢
      rw [← inv.keys_eq i]
      exact hmem
    refine ⟨inv.assoc_pos, inv.len_cache, ?_, ?_, inv.keys_nodup, inv.size_le, ?_, ?_⟩
    · simp only [List.length_set]
      exact inv.len_tracker
    · intro j
      by_cases hj : i = j
      · subst hj
        rw [getD_set_self _ _ _ hitr, dictKeys_dictSet_mem _ _ _ htagT]
        exact inv.keys_eq i
      · rw [getD_set_ne _ _ _ _ hj]
        exact inv.keys_eq j
    · exact (tracker_inv_update cfg s inv i hitr _ tag hndT (fun p hp => hp)).1
    · exact (tracker_inv_update cfg s inv i hitr _ tag hndT (fun p hp => hp)).2
  · -- miss with space
    subst hs
    have htagT : dictMem (s.lru_tracker.getD i []) tag = false := by
      rw [dictMem_false_iff, ← inv.keys_eq i]
      exact (dictMem_false_iff _ _).mp hmem
    refine ⟨inv.assoc_pos, ?_, ?_, ?_, ?_, ?_, ?_, ?_⟩
    · simp only [List.length_set]
      exact inv.len_cache
    · simp only [List.length_set]
      exact inv.len_tracker
    · intro j
      by_cases hj : i = j
      · subst hj
        rw [getD_set_self _ _ _ hi, getD_set_self _ _ _ hitr]
        rw [dictKeys_dictSet_not_mem _ _ _ hmem, dictKeys_dictSet_not_mem _ _ _ htagT]
        rw [inv.keys_eq i]
      · rw [getD_set_ne _ _ _ _ hj, getD_set_ne _ _ _ _ hj]
        exact inv.keys_eq j
    · intro j
      by_cases hj : i = j
      · subst hj
        rw [getD_set_self _ _ _ hi]
        exact nodup_dictSet _ _ _ (inv.keys_nodup i)
      · rw [getD_set_ne _ _ _ _ hj]
        exact inv.keys_nodup j
    · intro j
      by_cases hj : i = j
      · subst hj
        rw [getD_set_self _ _ _ hi, length_dictSet_not_mem _ _ _ hmem]
        omega
      · rw [getD_set_ne _ _ _ _ hj]
        exact inv.size_le j
    · exact (tracker_inv_update cfg s inv i hitr _ tag hndT (fun p hp => hp)).1
    · exact (tracker_inv_update cfg s inv i hitr _ tag hndT (fun p hp => hp)).2
  · -- miss with eviction
    subst hs
    have hndC := inv.keys_nodup i
    have hndc2 : (dictKeys c2).Nodup := nodup_dictDel _ _ _ hndC hdelc
    have hndt2 : (dictKeys t2).Nodup := nodup_dictDel _ _ _ hndT hdelt
    have hkc2 : dictKeys c2 = (dictKeys (s.cache.getD i [])).erase e :=
      dictKeys_dictDel _ _ _ hdelc
    have hkt2 : dictKeys t2 = (dictKeys (s.lru_tracker.getD i [])).erase e :=
      dictKeys_dictDel _ _ _ hdelt
    have hkeq : dictKeys c2 = dictKeys t2 := by rw [hkc2, hkt2, inv.keys_eq i]
    have htagc2 : dictMem c2 tag = false := by
      rw [dictMem_false_iff, hkc2]
      intro hm
      exact (dictMem_false_iff _ _).mp hmem (List.mem_of_mem_erase hm)
    have htagt2 : dictMem t2 tag = false := by
      rw [dictMem_false_iff, ← hkeq]
      exact (dictMem_false_iff _ _).mp htagc2
    have hlendel := length_dictDel _ _ _ hdelc
    refine ⟨inv.assoc_pos, ?_, ?_, ?_, ?_, ?_, ?_, ?_⟩
    · simp only [List.length_set]
      exact inv.len_cache
    · simp only [List.length_set]
      exact inv.len_tracker
    · intro j
      by_cases hj : i = j
      · subst hj
        rw [getD_set_self _ _ _ hi, getD_set_self _ _ _ hitr]
        rw [dictKeys_dictSet_not_mem _ _ _ htagc2, dictKeys_dictSet_not_mem _ _ _ htagt2]
        rw [hkeq]
      · rw [getD_set_ne _ _ _ _ hj, getD_set_ne _ _ _ _ hj]
        exact inv.keys_eq j
    · intro j
      by_cases hj : i = j
      · subst hj
        rw [getD_set_self _ _ _ hi]
        exact nodup_dictSet _ _ _ hndc2
      · rw [getD_set_ne _ _ _ _ hj]
        exact inv.keys_nodup j
    · intro j
      by_cases hj : i = j
      · subst hj
        rw [getD_set_self _ _ _ hi, length_dictSet_not_mem _ _ _ htagc2]
        have := inv.size_le i
        omega
      · rw [getD_set_ne _ _ _ _ hj]
        exact inv.size_le j
    · exact (tracker_inv_update cfg s inv i hitr _ tag hndt2
        (fun p hp => mem_of_mem_dictDel _ _ _ hdelt p hp)).1
    · exact (tracker_inv_update cfg s inv i hitr _ tag hndt2
        (fun p hp => mem_of_mem_dictDel _ _ _ hdelt p hp)).2

theorem siminv_init (cfg : CacheConfig) (s : SimState)
    (h : mkCacheSimulator cfg = some s) : SimInv cfg s := by
  unfold mkCacheSimulator at h
  by_cases ha : cfg.association = 0
  · rw [if_pos ha] at h
    cases h
  · rw [if_neg ha] at h
    injection h with h1
    subst h1
    refine ⟨Nat.pos_of_ne_zero ha, ?_, ?_, ?_, ?_, ?_, ?_, ?_⟩
    · simp
    · simp
    · intro j
      rw [getD_replicate_nil]
    · intro j
      rw [getD_replicate_nil]
      simp [dictKeys]
    · intro j
      rw [getD_replicate_nil]
      simp
    · intro j p hp
      rw [getD_replicate_nil] at hp
      cases hp
    · intro j1 j2 p q hp hq hpq
      rw [getD_replicate_nil] at hp
      cases hp

theorem reachable_inv (cfg : CacheConfig) (s : SimState) (h : Reachable cfg s) :
    SimInv cfg s := by
  induction h with
  | init s hs => exact siminv_init cfg s hs
  | step s tag index r s2 hr hacc ih => exact siminv_step cfg s tag index r s2 ih hacc

theorem tracker_nonempty_of_full (cfg : CacheConfig) (s : SimState) (index : Nat)
    (inv : SimInv cfg s)
    (hsp : ¬ (s.cache.getD index []).length < cfg.association) :
    s.lru_tracker.getD index [] ≠ [] := by
  intro he
  have hkeys := inv.keys_eq index
  rw [he] at hkeys
  have hC : s.cache.getD index [] = [] := by
    cases hc : s.cache.getD index [] with
    | nil => rfl
    | cons a l =>
      rw [hc] at hkeys
      cases hkeys
  rw [hC] at hsp
  simp only [List.length_nil] at hsp
  have := inv.assoc_pos
  omega

theorem access_full_evicts (cfg : CacheConfig) (s : SimState) (tag : Nat) (index : Nat)
    (inv : SimInv cfg s) (hi : index < s.cache.length) (e : Nat)
    (hvic : (if cfg.replacement_policy = "LRU" then
               dictMinKey (s.lru_tracker.getD index [])
             else if cfg.replacement_policy = "MRU" then
               dictMaxKey (s.lru_tracker.getD index [])
             else if cfg.replacement_policy = "LOOKAHEAD" then
               dictMinKey (s.lru_tracker.getD index [])
             else none) = some e)
    (hmem : dictMem (s.cache.getD index []) tag = false)
    (hsp : ¬ (s.cache.getD index []).length < cfg.association) :
    ∃ c2 t2,
      dictDel (s.cache.getD index []) e = some c2 ∧
      dictDel (s.lru_tracker.getD index []) e = some t2 ∧
      access_cache cfg s tag (index : Int) = some ("M",
        ⟨s.cache.set index (dictSet c2 tag s.access_counter),
         s.lru_tracker.set index (dictSet t2 tag (s.access_counter + 1)),
         s.access_counter + 1⟩) := by
  have hlen : s.lru_tracker.length = s.cache.length := by
    rw [inv.len_tracker, inv.len_cache]
  have hpy := pyIdx_natCast _ _ hi
  have hpyT : pyIdx s.lru_tracker.length (index : Int) = some index := by
    rw [hlen]
    exact hpy
  obtain ⟨v, hvT⟩ := victim_mem cfg _ e hvic
  have heT : dictMem (s.lru_tracker.getD index []) e = true := by
    rw [dictMem_iff]
    exact List.mem_map_of_mem Prod.fst hvT
  have heC : dictMem (s.cache.getD index []) e = true := by
    rw [dictMem_iff, inv.keys_eq index, ← dictMem_iff]
    exact heT
  obtain ⟨c2, t2, hdelc, hdelt, hrep⟩ :=
    replace_entry_eq cfg s _ tag index e hpyT hvic heC heT
  exact ⟨c2, t2, hdelc, hdelt,
    access_miss_evict_eq cfg s tag _ index c2 t2 hpy hlen hmem hsp hrep⟩

/-- C2: for every reachable cache state and every valid `(tag, index)` with
`index < set_count` (and a recognized replacement policy), `access_cache`
returns `"H"` if and only if a line with that tag was present in the set at
that index immediately before the access, and returns `"M"` otherwise. -/
theorem access_hit_iff_resident (cfg : CacheConfig) (s : SimState) (tag index : Nat)
    (hreach : Reachable cfg s)
    (hpol : cfg.replacement_policy = "LRU" ∨ cfg.replacement_policy = "MRU" ∨
      cfg.replacement_policy = "LOOKAHEAD")
    (hidx : index < cfg.set_count) :
    ∃ r s', access_cache cfg s tag (index : Int) = some (r, s') ∧
      (r = "H" ↔ tag ∈ dictKeys (s.cache.getD index [])) ∧
      (r = "H" ∨ r = "M") := by
  have inv := reachable_inv cfg s hreach
  have hi : index < s.cache.length := by rw [inv.len_cache]; exact hidx
  have hpy : pyIdx s.cache.length (index : Int) = some index := pyIdx_natCast _ _ hi
  have hlen : s.lru_tracker.length = s.cache.length := by
    rw [inv.len_tracker, inv.len_cache]
  cases hmem : dictMem (s.cache.getD index []) tag with
  | true =>
    refine ⟨"H", _, access_hit_eq cfg s tag _ index hpy hlen hmem, ?_, Or.inl rfl⟩
    exact iff_of_true rfl ((dictMem_iff _ _).mp hmem)
  | false =>
    have hnot : tag ∉ dictKeys (s.cache.getD index []) := (dictMem_false_iff _ _).mp hmem
    by_cases hsp : (s.cache.getD index []).length < cfg.association
    · refine ⟨"M", _, access_miss_space_eq cfg s tag _ index hpy hlen hmem hsp, ?_,
        Or.inr rfl⟩
      exact iff_of_false (by decide) hnot
    · have hTne := tracker_nonempty_of_full cfg s index inv hsp
      obtain ⟨e, hve⟩ : ∃ e,
          (if cfg.replacement_policy = "LRU" then
             dictMinKey (s.lru_tracker.getD index [])
           else if cfg.replacement_policy = "MRU" then
             dictMaxKey (s.lru_tracker.getD index [])
           else if cfg.replacement_policy = "LOOKAHEAD" then
             dictMinKey (s.lru_tracker.getD index [])
           else none) = some e := by
        rcases hpol with hp | hp | hp
        · obtain ⟨k, hk⟩ := dictMinKey_of_ne_nil _ hTne
          exact ⟨k, by rw [hp, if_pos rfl]; exact hk⟩
        · obtain ⟨k, hk⟩ := dictMaxKey_of_ne_nil _ hTne
          exact ⟨k, by rw [hp, if_neg (by decide), if_pos rfl]; exact hk⟩
        · obtain ⟨k, hk⟩ := dictMinKey_of_ne_nil _ hTne
          refine ⟨k, ?_⟩
          rw [hp, if_neg (by decide), if_neg (by decide), if_pos rfl]
          exact hk
      obtain ⟨c2, t2, _, _, hacc⟩ :=
        access_full_evicts cfg s tag index inv hi e hve hmem hsp
      exact ⟨"M", _, hacc, iff_of_false (by decide) hnot, Or.inr rfl⟩

theorem access_hit_iff_resident_witness :
    ∃ r s', access_cache ⟨8, 1, 2, 1, "LRU"⟩ ⟨[[], []], [[], []], 0⟩ 5
        (((1 : Nat) : Int)) = some (r, s') ∧
      (r = "H" ↔ 5 ∈ dictKeys ((⟨[[], []], [[], []], 0⟩ : SimState).cache.getD 1 [])) ∧
      (r = "H" ∨ r = "M") :=
  access_hit_iff_resident ⟨8, 1, 2, 1, "LRU"⟩ ⟨[[], []], [[], []], 0⟩ 5 1
    (Reachable.init _ rfl) (Or.inl rfl) (by decide)

/-- C4: for every sequence of accesses starting from the freshly constructed
cache, every cache set holds at most `association` lines. -/
theorem cache_capacity_bound (cfg : CacheConfig) (s : SimState)
    (h : Reachable cfg s) :
    ∀ i, (s.cache.getD i []).length ≤ cfg.association :=
  (reachable_inv cfg s h).size_le

theorem cache_capacity_bound_witness :
    (((⟨[[], []], [[], []], 0⟩ : SimState).cache.getD 0 []).length ≤
      (⟨8, 1, 2, 1, "LRU"⟩ : CacheConfig).association) :=
  cache_capacity_bound ⟨8, 1, 2, 1, "LRU"⟩ ⟨[[], []], [[], []], 0⟩
    (Reachable.init _ rfl) 0

/-- C5: on every successful access from a reachable state the global access
counter is incremented exactly once and the accessed/inserted line's tracker
recency is stamped with the post-increment counter value; moreover in every
reachable state all stored recency values are pairwise distinct (across sets
as well), so recency values form a strict total order over the run. -/
theorem recency_post_increment_and_distinct :
    (∀ (cfg : CacheConfig) (s : SimState), Reachable cfg s →
       ∀ (tag : Nat) (index : Int) (r : String) (s' : SimState),
         access_cache cfg s tag index = some (r, s') →
         s'.access_counter = s.access_counter + 1 ∧
         ∃ i, pyIdx s.cache.length index = some i ∧
           dictGet (s'.lru_tracker.getD i []) tag = some s'.access_counter) ∧
    (∀ (cfg : CacheConfig) (s : SimState), Reachable cfg s →
       ∀ i j p q, p ∈ s.lru_tracker.getD i [] → q ∈ s.lru_tracker.getD j [] →
         p.2 = q.2 → i = j ∧ p = q) := by
  constructor
  · intro cfg s hreach tag index r s' h
    have inv := reachable_inv cfg s hreach
    have hlen : s.lru_tracker.length = s.cache.length := by
      rw [inv.len_tracker, inv.len_cache]
    obtain ⟨i, hpy, hbr⟩ := access_cases cfg s tag index r s' hlen h
    have hi : i < s.cache.length := pyIdx_lt _ _ _ hpy
    have hitr : i < s.lru_tracker.length := by rw [hlen]; exact hi
    rcases hbr with ⟨hmem, hr, hs⟩ | ⟨hmem, hsp, hr, hs⟩ |
      ⟨e, c2, t2, hmem, hsp, hvic, hdelc, hdelt, hr, hs⟩ <;> subst hs
    · exact ⟨rfl, i, hpy, by rw [getD_set_self _ _ _ hitr, dictGet_dictSet_self]⟩
    · exact ⟨rfl, i, hpy, by rw [getD_set_self _ _ _ hitr, dictGet_dictSet_self]⟩
    · exact ⟨rfl, i, hpy, by rw [getD_set_self _ _ _ hitr, dictGet_dictSet_self]⟩
  · intro cfg s hreach
    exact (reachable_inv cfg s hreach).vals_inj

theorem recency_post_increment_and_distinct_witness :
    ((⟨[[], [(5, 0)]], [[], [(5, 1)]], 1⟩ : SimState).access_counter =
        (⟨[[], []], [[], []], 0⟩ : SimState).access_counter + 1 ∧
      ∃ i, pyIdx (⟨[[], []], [[], []], 0⟩ : SimState).cache.length 1 = some i ∧
        dictGet ((⟨[[], [(5, 0)]], [[], [(5, 1)]], 1⟩ : SimState).lru_tracker.getD i [])
            5 = some (⟨[[], [(5, 0)]], [[], [(5, 1)]], 1⟩ : SimState).access_counter) ∧
    ((1 : Nat) = 1 ∧ ((5, 1) : Nat × Nat) = (5, 1)) :=
  ⟨recency_post_increment_and_distinct.1 ⟨8, 1, 2, 1, "LRU"⟩ ⟨[[], []], [[], []], 0⟩
      (Reachable.init _ rfl) 5 1 "M" ⟨[[], [(5, 0)]], [[], [(5, 1)]], 1⟩ (by decide),
   recency_post_increment_and_distinct.2 ⟨8, 1, 2, 1, "LRU"⟩
      ⟨[[], [(5, 0)]], [[], [(5, 1)]], 1⟩
      (Reachable.step _ 5 1 "M" _ (Reachable.init _ rfl) (by decide)) 1 1 (5, 1) (5, 1)
      (by decide) (by decide) rfl⟩

/-- C3: under the `"LRU"` policy, whenever `access_cache` is called with a
tag not resident in a set already holding exactly `association` lines, the
tag removed from that set is the resident tag whose recency value is minimal
among the set's resident tags at that moment. -/
theorem lru_evicts_min_recency (cfg : CacheConfig) (s : SimState) (tag index : Nat)
    (hreach : Reachable cfg s)
    (hpol : cfg.replacement_policy = "LRU")
    (hidx : index < cfg.set_count)
    (hmiss : tag ∉ dictKeys (s.cache.getD index []))
    (hfull : (s.cache.getD index []).length = cfg.association) :
    ∃ evicted rv s', access_cache cfg s tag (index : Int) = some ("M", s') ∧
      evicted ∈ dictKeys (s.cache.getD index []) ∧
      evicted ∉ dictKeys (s'.cache.getD index []) ∧
      (∀ t, t ∈ dictKeys (s.cache.getD index []) → t ≠ evicted →
        t ∈ dictKeys (s'.cache.getD index [])) ∧
      dictGet (s.lru_tracker.getD index []) evicted = some rv ∧
      (∀ t v, t ∈ dictKeys (s.cache.getD index []) →
        dictGet (s.lru_tracker.getD index []) t = some v → rv ≤ v) := by
  have inv := reachable_inv cfg s hreach
  have hi : index < s.cache.length := by rw [inv.len_cache]; exact hidx
  have hmem : dictMem (s.cache.getD index []) tag = false :=
    (dictMem_false_iff _ _).mpr hmiss
  have hsp : ¬ (s.cache.getD index []).length < cfg.association := by
    rw [hfull]
    omega
  have hTne := tracker_nonempty_of_full cfg s index inv hsp
  obtain ⟨k, hk⟩ := dictMinKey_of_ne_nil _ hTne
  have hvic : (if cfg.replacement_policy = "LRU" then
                 dictMinKey (s.lru_tracker.getD index [])
               else if cfg.replacement_policy = "MRU" then
                 dictMaxKey (s.lru_tracker.getD index [])
               else if cfg.replacement_policy = "LOOKAHEAD" then
                 dictMinKey (s.lru_tracker.getD index [])
               else none) = some k := by
    rw [hpol, if_pos rfl]
    exact hk
  obtain ⟨c2, t2, hdelc, hdelt, hacc⟩ :=
    access_full_evicts cfg s tag index inv hi k hvic hmem hsp
  obtain ⟨v, hvmem, hvmin⟩ := dictMinKey_spec _ k hk
  have hndC := inv.keys_nodup index
  have hndT : (dictKeys (s.lru_tracker.getD index [])).Nodup := by
    rw [← inv.keys_eq index]
    exact hndC
  have hgetk : dictGet (s.lru_tracker.getD index []) k = some v :=
    mem_dictGet _ hndT (k, v) hvmem
  have hkC : k ∈ dictKeys (s.cache.getD index []) := by
    rw [inv.keys_eq index]
    exact List.mem_map_of_mem Prod.fst hvmem
  have hktag : k ≠ tag := fun he => hmiss (he ▸ hkC)
  have hkc2 : dictKeys c2 = (dictKeys (s.cache.getD index [])).erase k :=
    dictKeys_dictDel _ _ _ hdelc
  have htagc2 : dictMem c2 tag = false := by
    rw [dictMem_false_iff, hkc2]
    intro hm
    exact hmiss (List.mem_of_mem_erase hm)
  refine ⟨k, v, _, hacc, hkC, ?_, ?_, hgetk, ?_⟩
  · rw [getD_set_self _ _ _ hi, dictKeys_dictSet_not_mem _ _ _ htagc2]
    intro hm
    rcases List.mem_append.mp hm with hm1 | hm2
    · rw [hkc2] at hm1
      exact ((List.Nodup.mem_erase_iff hndC).mp hm1).1 rfl
    · exact hktag (List.mem_singleton.mp hm2)
  · intro t htC htk
    rw [getD_set_self _ _ _ hi, dictKeys_dictSet_not_mem _ _ _ htagc2]
    apply List.mem_append_left
    rw [hkc2]
    exact (List.Nodup.mem_erase_iff hndC).mpr ⟨htk, htC⟩
  · intro t v' htC hgt
    exact hvmin (t, v') (dictGet_mem _ _ _ hgt)

theorem lru_evicts_min_recency_witness :
    ∃ evicted rv s',
      access_cache ⟨8, 1, 2, 2, "LRU"⟩ ⟨[[(1, 0), (2, 1)]], [[(1, 1), (2, 2)]], 2⟩ 3
        (((0 : Nat) : Int)) = some ("M", s') ∧
      evicted ∈ dictKeys
        ((⟨[[(1, 0), (2, 1)]], [[(1, 1), (2, 2)]], 2⟩ : SimState).cache.getD 0 []) ∧
      evicted ∉ dictKeys (s'.cache.getD 0 []) ∧
      (∀ t, t ∈ dictKeys
          ((⟨[[(1, 0), (2, 1)]], [[(1, 1), (2, 2)]], 2⟩ : SimState).cache.getD 0 []) →
        t ≠ evicted → t ∈ dictKeys (s'.cache.getD 0 [])) ∧
      dictGet
        ((⟨[[(1, 0), (2, 1)]], [[(1, 1), (2, 2)]], 2⟩ : SimState).lru_tracker.getD 0 [])
        evicted = some rv ∧
      (∀ t v, t ∈ dictKeys
          ((⟨[[(1, 0), (2, 1)]], [[(1, 1), (2, 2)]], 2⟩ : SimState).cache.getD 0 []) →
        dictGet ((⟨[[(1, 0), (2, 1)]],
          [[(1, 1), (2, 2)]], 2⟩ : SimState).lru_tracker.getD 0 []) t = some v →
        rv ≤ v) :=
  lru_evicts_min_recency ⟨8, 1, 2, 2, "LRU"⟩
    ⟨[[(1, 0), (2, 1)]], [[(1, 1), (2, 2)]], 2⟩ 3 0
    (Reachable.step ⟨[[(1, 0)]], [[(1, 1)]], 1⟩ 2 0 "M"
      ⟨[[(1, 0), (2, 1)]], [[(1, 1), (2, 2)]], 2⟩
      (Reachable.step _ 1 0 "M" ⟨[[(1, 0)]], [[(1, 1)]], 1⟩
        (Reachable.init _ rfl) (by decide))
      (by decide))
    rfl (by decide) (by decide) (by decide)

/-- C8: under the `"MRU"` policy, whenever `access_cache` is called with a
tag not resident in a set already holding exactly `association` lines, the
tag removed from that set is the resident tag whose recency value is maximal
among the set's resident tags at that moment. -/
theorem mru_evicts_max_recency (cfg : CacheConfig) (s : SimState) (tag index : Nat)
    (hreach : Reachable cfg s)
    (hpol : cfg.replacement_policy = "MRU")
    (hidx : index < cfg.set_count)
    (hmiss : tag ∉ dictKeys (s.cache.getD index []))
    (hfull : (s.cache.getD index []).length = cfg.association) :
    ∃ evicted rv s', access_cache cfg s tag (index : Int) = some ("M", s') ∧
      evicted ∈ dictKeys (s.cache.getD index []) ∧
      evicted ∉ dictKeys (s'.cache.getD index []) ∧
      (∀ t, t ∈ dictKeys (s.cache.getD index []) → t ≠ evicted →
        t ∈ dictKeys (s'.cache.getD index [])) ∧
      dictGet (s.lru_tracker.getD index []) evicted = some rv ∧
      (∀ t v, t ∈ dictKeys (s.cache.getD index []) →
        dictGet (s.lru_tracker.getD index []) t = some v → v ≤ rv) := by
  have inv := reachable_inv cfg s hreach
  have hi : index < s.cache.length := by rw [inv.len_cache]; exact hidx
  have hmem : dictMem (s.cache.getD index []) tag = false :=
    (dictMem_false_iff _ _).mpr hmiss
  have hsp : ¬ (s.cache.getD index []).length < cfg.association := by
    rw [hfull]
    omega
  have hTne := tracker_nonempty_of_full cfg s index inv hsp
  obtain ⟨k, hk⟩ := dictMaxKey_of_ne_nil _ hTne
  have hvic : (if cfg.replacement_policy = "LRU" then
                 dictMinKey (s.lru_tracker.getD index [])
               else if cfg.replacement_policy = "MRU" then
                 dictMaxKey (s.lru_tracker.getD index [])
               else if cfg.replacement_policy = "LOOKAHEAD" then
                 dictMinKey (s.lru_tracker.getD index [])
               else none) = some k := by
    rw [hpol, if_neg (by decide), if_pos rfl]
    exact hk
  obtain ⟨c2, t2, hdelc, hdelt, hacc⟩ :=
    access_full_evicts cfg s tag index inv hi k hvic hmem hsp
  obtain ⟨v, hvmem, hvmax⟩ := dictMaxKey_spec _ k hk
  have hndC := inv.keys_nodup index
  have hndT : (dictKeys (s.lru_tracker.getD index [])).Nodup := by
    rw [← inv.keys_eq index]
    exact hndC
  have hgetk : dictGet (s.lru_tracker.getD index []) k = some v :=
    mem_dictGet _ hndT (k, v) hvmem
  have hkC : k ∈ dictKeys (s.cache.getD index []) := by
    rw [inv.keys_eq index]
    exact List.mem_map_of_mem Prod.fst hvmem
  have hktag : k ≠ tag := fun he => hmiss (he ▸ hkC)
  have hkc2 : dictKeys c2 = (dictKeys (s.cache.getD index [])).erase k :=
    dictKeys_dictDel _ _ _ hdelc
  have htagc2 : dictMem c2 tag = false := by
    rw [dictMem_false_iff, hkc2]
    intro hm
    exact hmiss (List.mem_of_mem_erase hm)
  refine ⟨k, v, _, hacc, hkC, ?_, ?_, hgetk, ?_⟩
  · rw [getD_set_self _ _ _ hi, dictKeys_dictSet_not_mem _ _ _ htagc2]
    intro hm
    rcases List.mem_append.mp hm with hm1 | hm2
    · rw [hkc2] at hm1
      exact ((List.Nodup.mem_erase_iff hndC).mp hm1).1 rfl
    · exact hktag (List.mem_singleton.mp hm2)
  · intro t htC htk
    rw [getD_set_self _ _ _ hi, dictKeys_dictSet_not_mem _ _ _ htagc2]
    apply List.mem_append_left
    rw [hkc2]
    exact (List.Nodup.mem_erase_iff hndC).mpr ⟨htk, htC⟩
  · intro t v' htC hgt
    exact hvmax (t, v') (dictGet_mem _ _ _ hgt)

theorem mru_evicts_max_recency_witness :
    ∃ evicted rv s',
      access_cache ⟨8, 1, 2, 2, "MRU"⟩ ⟨[[(1, 0), (2, 1)]], [[(1, 1), (2, 2)]], 2⟩ 3
        (((0 : Nat) : Int)) = some ("M", s') ∧
      evicted ∈ dictKeys
        ((⟨[[(1, 0), (2, 1)]], [[(1, 1), (2, 2)]], 2⟩ : SimState).cache.getD 0 []) ∧
      evicted ∉ dictKeys (s'.cache.getD 0 []) ∧
      (∀ t, t ∈ dictKeys
          ((⟨[[(1, 0), (2, 1)]], [[(1, 1), (2, 2)]], 2⟩ : SimState).cache.getD 0 []) →
        t ≠ evicted → t ∈ dictKeys (s'.cache.getD 0 [])) ∧
      dictGet
        ((⟨[[(1, 0), (2, 1)]], [[(1, 1), (2, 2)]], 2⟩ : SimState).lru_tracker.getD 0 [])
        evicted = some rv ∧
      (∀ t v, t ∈ dictKeys
          ((⟨[[(1, 0), (2, 1)]], [[(1, 1), (2, 2)]], 2⟩ : SimState).cache.getD 0 []) →
        dictGet ((⟨[[(1, 0), (2, 1)]],
          [[(1, 1), (2, 2)]], 2⟩ : SimState).lru_tracker.getD 0 []) t = some v →
        v ≤ rv) :=
  mru_evicts_max_recency ⟨8, 1, 2, 2, "MRU"⟩
    ⟨[[(1, 0), (2, 1)]], [[(1, 1), (2, 2)]], 2⟩ 3 0
    (Reachable.step ⟨[[(1, 0)]], [[(1, 1)]], 1⟩ 2 0 "M"
      ⟨[[(1, 0), (2, 1)]], [[(1, 1), (2, 2)]], 2⟩
      (Reachable.step _ 1 0 "M" ⟨[[(1, 0)]], [[(1, 1)]], 1⟩
        (Reachable.init _ rfl) (by decide))
      (by decide))
    rfl (by decide) (by decide) (by decide)

theorem replace_lookahead_eq_lru (a b n k : Nat) (s : SimState) (index : Int)
    (tag : Nat) :
    replace_entry ⟨a, b, n, k, "LOOKAHEAD"⟩ s index tag =
    replace_entry ⟨a, b, n, k, "LRU"⟩ s index tag := by
  unfold replace_entry
  cases hpy : pyIdx s.lru_tracker.length index with
  | none => rfl
  | some i => rfl

theorem access_lookahead_eq_lru (a b n k : Nat) (s : SimState) (tag : Nat)
    (index : Int) :
    access_cache ⟨a, b, n, k, "LOOKAHEAD"⟩ s tag index =
    access_cache ⟨a, b, n, k, "LRU"⟩ s tag index := by
  unfold access_cache
  cases hpy : pyIdx s.cache.length index with
  | none => rfl
  | some i =>
    simp only [replace_lookahead_eq_lru a b n k s index tag]

/-- C9: the `"LOOKAHEAD"` policy is behaviorally identical to `"LRU"`: for
every geometry, construction gives the same initial state, and for every
start state and access trace the run produces the same hit/miss result
strings and the same final cache state. -/
theorem lookahead_equals_lru :
    ∀ (a b n k : Nat) (s : SimState) (trace : List (Nat × Int)),
      mkCacheSimulator ⟨a, b, n, k, "LOOKAHEAD"⟩ =
        mkCacheSimulator ⟨a, b, n, k, "LRU"⟩ ∧
      runTrace ⟨a, b, n, k, "LOOKAHEAD"⟩ s trace =
        runTrace ⟨a, b, n, k, "LRU"⟩ s trace := by
  intro a b n k s trace
  refine ⟨rfl, ?_⟩
  induction trace generalizing s with
  | nil => rfl
  | cons hd rest ih =>
    obtain ⟨tag, index⟩ := hd
    simp only [runTrace]
    rw [access_lookahead_eq_lru a b n k s tag index]
    cases hac : access_cache ⟨a, b, n, k, "LRU"⟩ s tag index with
    | none => rfl
    | some rs =>
      obtain ⟨r, s2⟩ := rs
      simp only [ih s2]

theorem keys_getD_after_set (ls lt : List PyDict) (i : Nat) (hi : i < ls.length)
    (hlen : ls.length = lt.length)
    (hkeys : ∀ j, dictKeys (ls.getD j []) = dictKeys (lt.getD j []))
    (xs xt : PyDict) (hx : dictKeys xs = dictKeys xt) :
    ∀ j, dictKeys ((ls.set i xs).getD j []) = dictKeys ((lt.set i xt).getD j []) := by
  intro j
  by_cases hj : i = j
  · subst hj
    rw [getD_set_self _ _ _ hi, getD_set_self _ _ _ (by rw [← hlen]; exact hi)]
    exact hx
  · rw [getD_set_ne _ _ _ _ hj, getD_set_ne _ _ _ _ hj]
    exact hkeys j

/-- C10: after every access from the freshly constructed cache, the key set
of each per-set cache dictionary equals the key set of the corresponding
`lru_tracker` dictionary; the value stored in the cache dictionary is the
pre-increment counter on a miss and is never refreshed on a hit; and two
states agreeing on trackers, counter and per-set cache key lists (but not
necessarily on cache values) produce the same hit/miss result and eviction
behavior — so the cache-stored recency value never influences any result. -/
theorem cache_recency_value_irrelevant :
    (∀ (cfg : CacheConfig) (s : SimState), Reachable cfg s →
       ∀ i t, t ∈ dictKeys (s.cache.getD i []) ↔
         t ∈ dictKeys (s.lru_tracker.getD i [])) ∧
    (∀ (cfg : CacheConfig) (s : SimState), Reachable cfg s →
       ∀ (tag : Nat) (index : Int) (r : String) (s' : SimState),
         access_cache cfg s tag index = some (r, s') →
         (r = "H" → s'.cache = s.cache) ∧
         (r = "M" → ∃ i, pyIdx s.cache.length index = some i ∧
            dictGet (s'.cache.getD i []) tag = some s.access_counter)) ∧
    (∀ (cfg : CacheConfig) (s t : SimState) (tag : Nat) (index : Int), ObsEq s t →
       s.lru_tracker.length = s.cache.length →
       (access_cache cfg s tag index = none ∧ access_cache cfg t tag index = none) ∨
       (∃ r s' t', access_cache cfg s tag index = some (r, s') ∧
         access_cache cfg t tag index = some (r, t') ∧ ObsEq s' t')) := by
  refine ⟨?_, ?_, ?_⟩
  · intro cfg s hreach i t
    rw [(reachable_inv cfg s hreach).keys_eq i]
  · intro cfg s hreach tag index r s' h
    have inv := reachable_inv cfg s hreach
    have hlen : s.lru_tracker.length = s.cache.length := by
      rw [inv.len_tracker, inv.len_cache]
    obtain ⟨i, hpy, hbr⟩ := access_cases cfg s tag index r s' hlen h
    have hi : i < s.cache.length := pyIdx_lt _ _ _ hpy
    rcases hbr with ⟨hmem, hr, hs⟩ | ⟨hmem, hsp, hr, hs⟩ |
      ⟨e, c2, t2, hmem, hsp, hvic, hdelc, hdelt, hr, hs⟩ <;> subst hs <;> subst hr
    · exact ⟨fun _ => rfl, fun hM => absurd hM (by decide)⟩
    · refine ⟨fun hH => absurd hH (by decide), fun _ => ⟨i, hpy, ?_⟩⟩
      rw [getD_set_self _ _ _ hi, dictGet_dictSet_self]
    · refine ⟨fun hH => absurd hH (by decide), fun _ => ⟨i, hpy, ?_⟩⟩
      rw [getD_set_self _ _ _ hi, dictGet_dictSet_self]
  · intro cfg s t tag index hobs hlens
    obtain ⟨htr, hcnt, hlenc, hkeys⟩ := hobs
    have hlent : t.lru_tracker.length = t.cache.length := by
      rw [← htr, hlens, hlenc]
    cases hpy : pyIdx s.cache.length index with
    | none =>
      have hpyt : pyIdx t.cache.length index = none := by rw [← hlenc]; exact hpy
      left
      constructor
      · simp only [access_cache, hpy]
      · simp only [access_cache, hpyt]
    | some i =>
      have hpyt : pyIdx t.cache.length index = some i := by rw [← hlenc]; exact hpy
      have hi : i < s.cache.length := pyIdx_lt _ _ _ hpy
      have hpyTs : pyIdx s.lru_tracker.length index = some i := by rw [hlens]; exact hpy
      have hpyTt : pyIdx t.lru_tracker.length index = some i := by rw [hlent]; exact hpyt
      have hmemeq : ∀ tg, dictMem (s.cache.getD i []) tg
          = dictMem (t.cache.getD i []) tg := by
        intro tg
        cases hm : dictMem (t.cache.getD i []) tg with
        | true =>
          rw [dictMem_iff, hkeys i, ← dictMem_iff]
          exact hm
        | false =>
          rw [dictMem_false_iff, hkeys i]
          exact (dictMem_false_iff _ _).mp hm
      have hleni : (s.cache.getD i []).length = (t.cache.getD i []).length := by
        have hc := congrArg List.length (hkeys i)
        simpa [dictKeys] using hc
      cases hmem : dictMem (s.cache.getD i []) tag with
      | true =>
        have hmemt : dictMem (t.cache.getD i []) tag = true := by
          rw [← hmemeq]
          exact hmem
        right
        refine ⟨"H", _, _, access_hit_eq cfg s tag index i hpy hlens hmem,
          access_hit_eq cfg t tag index i hpyt hlent hmemt, ?_, ?_, hlenc, hkeys⟩
        · rw [htr, hcnt]
        · rw [hcnt]
      | false =>
        have hmemt : dictMem (t.cache.getD i []) tag = false := by
          rw [← hmemeq]
          exact hmem
        by_cases hsp : (s.cache.getD i []).length < cfg.association
        · have hspt : (t.cache.getD i []).length < cfg.association := by
            rw [← hleni]
            exact hsp
          right
          refine ⟨"M", _, _,
            access_miss_space_eq cfg s tag index i hpy hlens hmem hsp,
            access_miss_space_eq cfg t tag index i hpyt hlent hmemt hspt,
            ?_, ?_, ?_, ?_⟩
          · rw [htr, hcnt]
          · rw [hcnt]
          · simp only [List.length_set]
            exact hlenc
          · apply keys_getD_after_set s.cache t.cache i hi hlenc hkeys
            rw [dictKeys_dictSet_not_mem _ _ _ hmem,
              dictKeys_dictSet_not_mem _ _ _ hmemt, hkeys i]
        · have hspt : ¬ (t.cache.getD i []).length < cfg.association := by
            rw [← hleni]
            exact hsp
          have htri : s.lru_tracker.getD i [] = t.lru_tracker.getD i [] := by rw [htr]
          cases hvic : (if cfg.replacement_policy = "LRU" then
              dictMinKey (s.lru_tracker.getD i [])
            else if cfg.replacement_policy = "MRU" then
              dictMaxKey (s.lru_tracker.getD i [])
            else if cfg.replacement_policy = "LOOKAHEAD" then
              dictMinKey (s.lru_tracker.getD i [])
            else none) with
          | none =>
            have hvict : (if cfg.replacement_policy = "LRU" then
                dictMinKey (t.lru_tracker.getD i [])
              else if cfg.replacement_policy = "MRU" then
                dictMaxKey (t.lru_tracker.getD i [])
              else if cfg.replacement_policy = "LOOKAHEAD" then
                dictMinKey (t.lru_tracker.getD i [])
              else none) = none := by
              rw [← htri]
              exact hvic
            left
            constructor
            · have hrep : replace_entry cfg s index tag = none := by
                simp only [replace_entry, hpyTs, hvic]
              simp only [access_cache, hpy]
              rw [if_neg (by rw [hmem]; exact Bool.false_ne_true), if_neg hsp, hrep]
            · have hrep : replace_entry cfg t index tag = none := by
                simp only [replace_entry, hpyTt, hvict]
              simp only [access_cache, hpyt]
              rw [if_neg (by rw [hmemt]; exact Bool.false_ne_true), if_neg hspt, hrep]
          | some e =>
            have hvict : (if cfg.replacement_policy = "LRU" then
                dictMinKey (t.lru_tracker.getD i [])
              else if cfg.replacement_policy = "MRU" then
                dictMaxKey (t.lru_tracker.getD i [])
              else if cfg.replacement_policy = "LOOKAHEAD" then
                dictMinKey (t.lru_tracker.getD i [])
              else none) = some e := by
              rw [← htri]
              exact hvic
            cases hdelcs : dictDel (s.cache.getD i []) e with
            | none =>
              have hmemE : dictMem (s.cache.getD i []) e = false := by
                cases hme : dictMem (s.cache.getD i []) e with
                | false => rfl
                | true =>
                  obtain ⟨d', hd'⟩ := dictDel_isSome _ _ hme
                  rw [hd'] at hdelcs
                  cases hdelcs
              have hmemEt : dictMem (t.cache.getD i []) e = false := by
                rw [← hmemeq]
                exact hmemE
              have hdelct : dictDel (t.cache.getD i []) e = none :=
                dictDel_eq_none _ _ hmemEt
              left
              constructor
              · have hrep : replace_entry cfg s index tag = none := by
                  simp only [replace_entry, hpyTs, hvic, hdelcs]
                simp only [access_cache, hpy]
                rw [if_neg (by rw [hmem]; exact Bool.false_ne_true), if_neg hsp, hrep]
              · have hrep : replace_entry cfg t index tag = none := by
                  simp only [replace_entry, hpyTt, hvict, hdelct]
                simp only [access_cache, hpyt]
                rw [if_neg (by rw [hmemt]; exact Bool.false_ne_true), if_neg hspt, hrep]
            | some c2s =>
              have hmemE : dictMem (s.cache.getD i []) e = true := by
                cases hme : dictMem (s.cache.getD i []) e with
                | true => rfl
                | false =>
                  rw [dictDel_eq_none _ _ hme] at hdelcs
                  cases hdelcs
              have hmemEt : dictMem (t.cache.getD i []) e = true := by
                rw [← hmemeq]
                exact hmemE
              obtain ⟨c2t, hdelct⟩ := dictDel_isSome _ _ hmemEt
              cases hdelts : dictDel (s.lru_tracker.getD i []) e with
              | none =>
                have hdeltt : dictDel (t.lru_tracker.getD i []) e = none := by
                  rw [← htri]
                  exact hdelts
                left
                constructor
                · have hrep : replace_entry cfg s index tag = none := by
                    simp only [replace_entry, hpyTs, hvic, hdelcs, hdelts]
                  simp only [access_cache, hpy]
                  rw [if_neg (by rw [hmem]; exact Bool.false_ne_true), if_neg hsp, hrep]
                · have hrep : replace_entry cfg t index tag = none := by
                    simp only [replace_entry, hpyTt, hvict, hdelct, hdeltt]
                  simp only [access_cache, hpyt]
                  rw [if_neg (by rw [hmemt]; exact Bool.false_ne_true), if_neg hspt,
                    hrep]
              | some t2 =>
                have hdeltt : dictDel (t.lru_tracker.getD i []) e = some t2 := by
                  rw [← htri]
                  exact hdelts
                have hreps : replace_entry cfg s index tag = some
                    ⟨s.cache.set i (dictSet c2s tag s.access_counter),
                     s.lru_tracker.set i t2, s.access_counter⟩ := by
                  simp only [replace_entry, hpyTs, hvic, hdelcs, hdelts]
                have hrept : replace_entry cfg t index tag = some
                    ⟨t.cache.set i (dictSet c2t tag t.access_counter),
                     t.lru_tracker.set i t2, t.access_counter⟩ := by
                  simp only [replace_entry, hpyTt, hvict, hdelct, hdeltt]
                have hkc : dictKeys c2s = dictKeys c2t := by
                  rw [dictKeys_dictDel _ _ _ hdelcs, dictKeys_dictDel _ _ _ hdelct,
                    hkeys i]
                have htagc2s : dictMem c2s tag = false := by
                  rw [dictMem_false_iff, dictKeys_dictDel _ _ _ hdelcs]
                  intro hm
                  exact (dictMem_false_iff _ _).mp hmem (List.mem_of_mem_erase hm)
                have htagc2t : dictMem c2t tag = false := by
                  rw [dictMem_false_iff, ← hkc]
                  exact (dictMem_false_iff _ _).mp htagc2s
                right
                refine ⟨"M", _, _,
                  access_miss_evict_eq cfg s tag index i c2s t2 hpy hlens hmem hsp hreps,
                  access_miss_evict_eq cfg t tag index i c2t t2 hpyt hlent hmemt hspt
                    hrept, ?_, ?_, ?_, ?_⟩
                · rw [htr, hcnt]
                · rw [hcnt]
                · simp only [List.length_set]
                  exact hlenc
                · apply keys_getD_after_set s.cache t.cache i hi hlenc hkeys
                  rw [dictKeys_dictSet_not_mem _ _ _ htagc2s,
                    dictKeys_dictSet_not_mem _ _ _ htagc2t, hkc]

theorem cache_recency_value_irrelevant_witness :
    (5 ∈ dictKeys ((⟨[[], []], [[], []], 0⟩ : SimState).cache.getD 0 []) ↔
      5 ∈ dictKeys ((⟨[[], []], [[], []], 0⟩ : SimState).lru_tracker.getD 0 [])) ∧
    (("M" = "H" → (⟨[[], [(5, 0)]], [[], [(5, 1)]], 1⟩ : SimState).cache =
        (⟨[[], []], [[], []], 0⟩ : SimState).cache) ∧
      ("M" = "M" → ∃ i,
        pyIdx (⟨[[], []], [[], []], 0⟩ : SimState).cache.length 1 = some i ∧
        dictGet ((⟨[[], [(5, 0)]], [[], [(5, 1)]], 1⟩ : SimState).cache.getD i []) 5 =
          some (⟨[[], []], [[], []], 0⟩ : SimState).access_counter)) ∧
    ((access_cache ⟨8, 1, 2, 1, "LRU"⟩ ⟨[[], []], [[], []], 0⟩ 5 1 = none ∧
       access_cache ⟨8, 1, 2, 1, "LRU"⟩ ⟨[[], []], [[], []], 0⟩ 5 1 = none) ∨
     (∃ r s' t', access_cache ⟨8, 1, 2, 1, "LRU"⟩ ⟨[[], []], [[], []], 0⟩ 5 1 =
         some (r, s') ∧
       access_cache ⟨8, 1, 2, 1, "LRU"⟩ ⟨[[], []], [[], []], 0⟩ 5 1 = some (r, t') ∧
       ObsEq s' t')) :=
  ⟨cache_recency_value_irrelevant.1 ⟨8, 1, 2, 1, "LRU"⟩ ⟨[[], []], [[], []], 0⟩
      (Reachable.init _ rfl) 0 5,
   cache_recency_value_irrelevant.2.1 ⟨8, 1, 2, 1, "LRU"⟩ ⟨[[], []], [[], []], 0⟩
      (Reachable.init _ rfl) 5 1 "M" ⟨[[], [(5, 0)]], [[], [(5, 1)]], 1⟩ (by decide),
   cache_recency_value_irrelevant.2.2 ⟨8, 1, 2, 1, "LRU"⟩ ⟨[[], []], [[], []], 0⟩
      ⟨[[], []], [[], []], 0⟩ 5 1 ⟨rfl, rfl, rfl, fun _ => rfl⟩ rfl⟩

/-- C6 counterexample: the configuration `(8, 3, 4, 2, "FIFO")` violates the
power-of-two constraint (`block_size = 3`) and uses an unrecognized policy
name, yet construction succeeds (returns a simulator state instead of
failing), contradicting the claim that construction fails for every such
configuration. -/
theorem construction_no_validation_cex :
    mkCacheSimulator ⟨8, 3, 4, 2, "FIFO"⟩ = some ⟨[[], []], [[], []], 0⟩ := by decide

/-- C6 amended: the constructor performs no validation — it succeeds for
every configuration with nonzero associativity, whatever the geometry or
policy string; an unrecognized policy name causes a failure (`ValueError`)
only at the first eviction inside `replace_entry`, not at construction. -/
theorem construction_defers_policy_error :
    (∀ cfg : CacheConfig, cfg.association ≠ 0 → (mkCacheSimulator cfg).isSome) ∧
    (∃ s s1 : SimState, mkCacheSimulator ⟨8, 3, 4, 1, "FIFO"⟩ = some s ∧
      access_cache ⟨8, 3, 4, 1, "FIFO"⟩ s 1 0 = some ("M", s1) ∧
      access_cache ⟨8, 3, 4, 1, "FIFO"⟩ s1 2 0 = none) := by
  constructor
  · intro cfg ha
    unfold mkCacheSimulator
    rw [if_neg ha]
    rfl
  · exact ⟨⟨[[], [], [], []], [[], [], [], []], 0⟩,
      ⟨[[(1, 0)], [], [], []], [[(1, 1)], [], [], []], 1⟩,
      by decide, by decide, by decide⟩

theorem construction_defers_policy_error_witness :
    (mkCacheSimulator ⟨8, 3, 4, 2, "FIFO"⟩).isSome :=
  construction_defers_policy_error.1 ⟨8, 3, 4, 2, "FIFO"⟩ (by decide)

/-- C7 counterexample: the index `-1` is outside `[0, set_count)` with
`set_count = 2`, yet `access_cache` does not fail — Python list indexing
silently redirects it to the last set and the access succeeds with a miss
recorded in set `1`. -/
theorem negative_index_silently_wraps_cex :
    access_cache ⟨8, 1, 2, 1, "LRU"⟩ ⟨[[], []], [[], []], 0⟩ 5 (-1) =
      some ("M", ⟨[[], [(5, 0)]], [[], [(5, 1)]], 1⟩) := by decide

theorem replace_entry_tracker_length (cfg : CacheConfig) (s : SimState) (index : Int)
    (tag : Nat) (s1 : SimState) (h : replace_entry cfg s index tag = some s1) :
    s1.lru_tracker.length = s.lru_tracker.length := by
  cases hpy : pyIdx s.lru_tracker.length index with
  | none =>
    have hz : replace_entry cfg s index tag = none := by
      simp only [replace_entry, hpy]
    rw [hz] at h
    cases h
  | some i =>
    cases hvic : (if cfg.replacement_policy = "LRU" then
        dictMinKey (s.lru_tracker.getD i [])
      else if cfg.replacement_policy = "MRU" then
        dictMaxKey (s.lru_tracker.getD i [])
      else if cfg.replacement_policy = "LOOKAHEAD" then
        dictMinKey (s.lru_tracker.getD i [])
      else none) with
    | none =>
      have hz : replace_entry cfg s index tag = none := by
        simp only [replace_entry, hpy, hvic]
      rw [hz] at h
      cases h
    | some e =>
      cases hdc : dictDel (s.cache.getD i []) e with
      | none =>
        have hz : replace_entry cfg s index tag = none := by
          simp only [replace_entry, hpy, hvic, hdc]
        rw [hz] at h
        cases h
      | some c2 =>
        cases hdt : dictDel (s.lru_tracker.getD i []) e with
        | none =>
          have hz : replace_entry cfg s index tag = none := by
            simp only [replace_entry, hpy, hvic, hdc, hdt]
          rw [hz] at h
          cases h
        | some t2 =>
          have hz : replace_entry cfg s index tag = some
              ⟨s.cache.set i (dictSet c2 tag s.access_counter),
               s.lru_tracker.set i t2, s.access_counter⟩ := by
            simp only [replace_entry, hpy, hvic, hdc, hdt]
          rw [hz] at h
          injection h with h1
          subst h1
          simp

/-- C7 amended: an index with `index >= set_count` or `index < -set_count`
makes `access_cache` fail fast (`IndexError`, i.e. `none`); but an index in
`[-set_count, -1]` is silently redirected to the set at `set_count + index`
by Python list-index semantics, so not every index outside `[0, set_count)`
fails. -/
theorem index_out_of_range_fails (cfg : CacheConfig) (s : SimState) (tag : Nat)
    (index : Int)
    (hc : s.cache.length = cfg.set_count)
    (ht : s.lru_tracker.length = cfg.set_count) :
    (((cfg.set_count : Int) ≤ index ∨ index + (cfg.set_count : Int) < 0) →
      access_cache cfg s tag index = none) ∧
    ((index < 0 ∧ 0 ≤ index + (cfg.set_count : Int)) →
      access_cache cfg s tag index =
        access_cache cfg s tag (index + (cfg.set_count : Int))) := by
  constructor
  · intro h
    have hpy : pyIdx s.cache.length index = none := by
      unfold pyIdx
      rw [if_neg (by rw [hc]; omega), if_neg (by rw [hc]; omega)]
    simp only [access_cache, hpy]
  · rintro ⟨h1, h2⟩
    have hwrap : ∀ len : Nat, len = cfg.set_count →
        pyIdx len index = pyIdx len (index + (cfg.set_count : Int)) := by
      intro len hl
      subst hl
      have e1 : ¬ (0 ≤ index ∧ index < ((cfg.set_count : Nat) : Int)) := by omega
      have e2 : -((cfg.set_count : Nat) : Int) ≤ index ∧ index < 0 := by
        constructor <;> omega
      have e3 : 0 ≤ index + (cfg.set_count : Int) ∧
          index + (cfg.set_count : Int) < ((cfg.set_count : Nat) : Int) := by
        constructor <;> omega
      unfold pyIdx
      rw [if_neg e1, if_pos e2, if_pos e3]
      congr 1
      omega
    have hupd : ∀ (s1 : SimState) (tg : Nat), s1.lru_tracker.length = cfg.set_count →
        update_tracker s1 index tg =
          update_tracker s1 (index + (cfg.set_count : Int)) tg := by
      intro s1 tg hl
      unfold update_tracker
      rw [hwrap s1.lru_tracker.length hl]
    have hrepl : replace_entry cfg s index tag =
        replace_entry cfg s (index + (cfg.set_count : Int)) tag := by
      unfold replace_entry
      rw [hwrap s.lru_tracker.length ht]
    cases ho : pyIdx s.cache.length index with
    | none =>
      have ho2 : pyIdx s.cache.length (index + (cfg.set_count : Int)) = none := by
        rw [← hwrap s.cache.length hc]
        exact ho
      simp only [access_cache, ho, ho2]
    | some i =>
      have ho2 : pyIdx s.cache.length (index + (cfg.set_count : Int)) = some i := by
        rw [← hwrap s.cache.length hc]
        exact ho
      simp only [access_cache, ho, ho2]
      by_cases hm : dictMem (s.cache.getD i []) tag
      · rw [if_pos hm, if_pos hm, hupd s tag ht]
      · rw [if_neg hm, if_neg hm]
        by_cases hsp : (s.cache.getD i []).length < cfg.association
        · rw [if_pos hsp, if_pos hsp,
            hupd ⟨s.cache.set i (dictSet (s.cache.getD i []) tag s.access_counter),
              s.lru_tracker, s.access_counter⟩ tag ht]
        · rw [if_neg hsp, if_neg hsp, ← hrepl]
          cases hre : replace_entry cfg s index tag with
          | none => rfl
          | some s1 =>
            have hs1 : s1.lru_tracker.length = cfg.set_count := by
              rw [replace_entry_tracker_length cfg s index tag s1 hre]
              exact ht
            simp only [hupd s1 tag hs1]

theorem index_out_of_range_fails_witness :
    ((((⟨8, 1, 2, 1, "LRU"⟩ : CacheConfig).set_count : Int) ≤ 5 ∨
        (5 : Int) + ((⟨8, 1, 2, 1, "LRU"⟩ : CacheConfig).set_count : Int) < 0) →
      access_cache ⟨8, 1, 2, 1, "LRU"⟩ ⟨[[], []], [[], []], 0⟩ 7 5 = none) ∧
    (((5 : Int) < 0 ∧
        0 ≤ (5 : Int) + ((⟨8, 1, 2, 1, "LRU"⟩ : CacheConfig).set_count : Int)) →
      access_cache ⟨8, 1, 2, 1, "LRU"⟩ ⟨[[], []], [[], []], 0⟩ 7 5 =
        access_cache ⟨8, 1, 2, 1, "LRU"⟩ ⟨[[], []], [[], []], 0⟩ 7
          (5 + ((⟨8, 1, 2, 1, "LRU"⟩ : CacheConfig).set_count : Int))) :=
  index_out_of_range_fails ⟨8, 1, 2, 1, "LRU"⟩ ⟨[[], []], [[], []], 0⟩ 7 5 rfl rfl
